import Mathlib

/-!
Shallow embedding of the execution pipeline of `src/renderer/utils/executor.ts`
(hackerlab): output items, the message protocol and plain-code execution state
machine, the execution-id generator, the import rewriter, the markdown
renderer, the esbuild initialization cache and the `executeCode` orchestrator.
-/

namespace HackerLab

/-- The `type` field of an `OutputItem` in `executor.ts`:
`'log' | 'error' | 'warn' | 'info' | 'result' | 'react'`. -/
inductive OutKind where
  | log
  | error
  | warn
  | info
  | result
  | react
deriving DecidableEq, Repr

/-- An output item.  `executor.ts` also attaches a random `id` and a
`timestamp`; both are produced by external effects (`crypto.randomUUID`,
`Date.now`) and carry no information the spec claims depend on, so the
embedding keeps the kind and content, which determine an item's meaning. -/
structure Item where
  kind : OutKind
  content : String
deriving DecidableEq, Repr

/-- `createOutput(type, content)` restricted to its meaningful fields. -/
def createOutput (k : OutKind) (c : String) : Item := ⟨k, c⟩

/-- The console methods intercepted inside the execution iframe:
`['log', 'error', 'warn', 'info']`. -/
inductive ConsoleMethod where
  | log
  | error
  | warn
  | info
deriving DecidableEq, Repr

/-- `createOutput(data.method, ...)` uses the console method name as the
output item kind. -/
def ConsoleMethod.toKind : ConsoleMethod → OutKind
  | .log => .log
  | .error => .error
  | .warn => .warn
  | .info => .info

/-- A JavaScript value as seen by `formatValue`: `null`, `undefined`, a
string, an object (with the result of `JSON.stringify(arg, null, 2)` when it
succeeds, and the `String(arg)` fallback), or any other primitive with its
`String(arg)` representation. -/
inductive JsValue where
  | jnull
  | jundef
  | jstr (s : String)
  | jobj (stringified : Option String) (fallback : String)
  | jprim (strRep : String)
deriving DecidableEq, Repr

/-- The per-argument branch of `formatValue`. -/
def formatArg : JsValue → String
  | .jnull => "null"
  | .jundef => "undefined"
  | .jstr s => s
  | .jobj (some j) _ => j
  | .jobj none f => f
  | .jprim r => r

/-- `formatValue(args)`: each argument independently stringified, joined by
single spaces (`args.map(...).join(' ')`). -/
def formatValue (args : List JsValue) : String :=
  String.intercalate " " (args.map formatArg)

/-- The `data` of a protocol message posted by the execution iframe:
`console`, `error`, `result` or `done`. -/
inductive MsgData where
  | console (method : ConsoleMethod) (args : List JsValue)
  | errMsg (message : String)
  | result (value : JsValue)
  | done
deriving DecidableEq, Repr

/-- One event delivered to the host event loop during a plain-code run: a
`message` event carrying an `execId`-tagged payload, a `message` event whose
`event.data` is absent (`!event.data`), or the 10-second timer firing. -/
inductive Event where
  | message (execId : String) (data : MsgData)
  | nullData
  | timeoutFire
deriving DecidableEq, Repr

/-- The items `handleMessage` emits for one protocol message (the pure part
of the handler): a console message yields one item of the method's kind with
the joined argument representations; an error message yields one `error`
item; a result message yields one `result` item unless the value is
`undefined`; `done` yields no item. -/
def classify : MsgData → List Item
  | .console m args => [createOutput m.toKind (formatValue args)]
  | .errMsg msg => [createOutput .error msg]
  | .result v => if v = JsValue.jundef then [] else [createOutput .result (formatValue [v])]
  | .done => []

/-- The timeout error item: `createOutput('error', 'Execution timed out (10s)')`. -/
def timeoutItem : Item := createOutput .error "Execution timed out (10s)"

/-- The host-side state of one `executePlainCode` invocation, together with
counters recording how often each cleanup action ran.  The booleans mirror
the `resolved` flag, whether the `message` listener is registered, whether
the iframe is in the document, whether the blob URL is still unrevoked, and
whether the 10s timer is still armed. -/
structure PlainState where
  execId : String
  resolved : Bool
  listenerOn : Bool
  iframeAttached : Bool
  blobUrlActive : Bool
  timerArmed : Bool
  listenerRemovals : Nat
  iframeRemovals : Nat
  blobRevocations : Nat
  resolveCalls : Nat
  outputs : List Item
deriving DecidableEq, Repr

/-- The state right after the promise executor of `executePlainCode` ran:
listener registered, iframe appended, blob URL created, timer armed, nothing
resolved, no output yet. -/
def initPlainState (execId : String) : PlainState :=
  { execId := execId
    resolved := false
    listenerOn := true
    iframeAttached := true
    blobUrlActive := true
    timerArmed := true
    listenerRemovals := 0
    iframeRemovals := 0
    blobRevocations := 0
    resolveCalls := 0
    outputs := [] }

/-- `cleanup()`: early-return when `resolved`; otherwise set `resolved`,
remove the message listener, remove the iframe when it is still in the
document, revoke the blob URL when set, and resolve the promise. -/
def cleanup (s : PlainState) : PlainState :=
  if s.resolved then s
  else
    { s with
      resolved := true
      listenerOn := false
      listenerRemovals := s.listenerRemovals + 1
      iframeAttached := false
      iframeRemovals := s.iframeRemovals + (if s.iframeAttached then 1 else 0)
      blobUrlActive := false
      blobRevocations := s.blobRevocations + (if s.blobUrlActive then 1 else 0)
      resolveCalls := s.resolveCalls + 1 }

/-- One step of the host event loop.  A message event invokes
`handleMessage` only while the listener is registered; the handler discards
messages without data or with a foreign `execId`; `done` clears the timer
and cleans up; other payloads append their classified items.  The timer
firing (possible only while armed, i.e. not yet cleared) emits the timeout
error item and cleans up. -/
def step (s : PlainState) (e : Event) : PlainState :=
  match e with
  | .timeoutFire =>
    if s.timerArmed then
      cleanup { s with
                timerArmed := false
                outputs := s.outputs ++ [timeoutItem] }
    else s
  | .nullData => s
  | .message eid data =>
    if s.listenerOn then
      if eid = s.execId then
        match data with
        | .done => cleanup { s with timerArmed := false }
        | d => { s with outputs := s.outputs ++ classify d }
      else s
    else s

/-- Run the host event loop over a sequence of events. -/
def runEvents (execId : String) (events : List Event) : PlainState :=
  events.foldl step (initPlainState execId)

/-- An event that terminates the invocation: the timer firing, or a `done`
message carrying the invocation's own execution id. -/
def Event.isTerminator (execId : String) : Event → Bool
  | .timeoutFire => true
  | .message eid .done => eid = execId
  | _ => false

/-- The items an event contributes while the invocation is still live. -/
def liveItems (execId : String) : Event → List Item
  | .message eid d => if eid = execId then classify d else []
  | _ => []

/-- A live (not yet resolved) state: all resources held, no cleanup action
performed yet. -/
def Ready (s : PlainState) : Prop :=
  s.resolved = false ∧ s.listenerOn = true ∧ s.iframeAttached = true ∧
  s.blobUrlActive = true ∧ s.timerArmed = true ∧
  s.listenerRemovals = 0 ∧ s.iframeRemovals = 0 ∧
  s.blobRevocations = 0 ∧ s.resolveCalls = 0

instance (s : PlainState) : Decidable (Ready s) := by
  unfold Ready; infer_instance

/-- A torn-down state: every cleanup action (listener removal, iframe
removal, blob URL revocation, promise resolution) performed exactly once,
timer no longer armed. -/
def CleanedUp (s : PlainState) : Prop :=
  s.resolved = true ∧ s.listenerOn = false ∧ s.iframeAttached = false ∧
  s.blobUrlActive = false ∧ s.timerArmed = false ∧
  s.listenerRemovals = 1 ∧ s.iframeRemovals = 1 ∧
  s.blobRevocations = 1 ∧ s.resolveCalls = 1

instance (s : PlainState) : Decidable (CleanedUp s) := by
  unfold CleanedUp; infer_instance

theorem cleanup_outputs (s : PlainState) : (cleanup s).outputs = s.outputs := by
  unfold cleanup; split <;> rfl

theorem cleanup_execId (s : PlainState) : (cleanup s).execId = s.execId := by
  unfold cleanup; split <;> rfl

theorem step_ready_not_term {s : PlainState} (e : Event) (hs : Ready s)
    (he : e.isTerminator s.execId = false) :
    Ready (step s e) ∧ (step s e).outputs = s.outputs ++ liveItems s.execId e ∧
      (step s e).execId = s.execId := by
  obtain ⟨h1, h2, h3, h4, h5, h6, h7, h8, h9⟩ := hs
  cases e with
  | timeoutFire => simp [Event.isTerminator] at he
  | nullData =>
    refine ⟨⟨h1, h2, h3, h4, h5, h6, h7, h8, h9⟩, ?_, rfl⟩
    simp [step, liveItems]
  | message eid data =>
    by_cases heid : eid = s.execId
    · subst heid
      cases data with
      | done => simp [Event.isTerminator] at he
      | console m args =>
        refine ⟨?_, ?_, ?_⟩ <;>
          simp [step, liveItems, Ready, h1, h2, h3, h4, h5, h6, h7, h8, h9]
      | errMsg msg =>
        refine ⟨?_, ?_, ?_⟩ <;>
          simp [step, liveItems, Ready, h1, h2, h3, h4, h5, h6, h7, h8, h9]
      | result v =>
        refine ⟨?_, ?_, ?_⟩ <;>
          simp [step, liveItems, Ready, h1, h2, h3, h4, h5, h6, h7, h8, h9]
    · refine ⟨?_, ?_, ?_⟩ <;>
        simp [step, liveItems, Ready, heid, h1, h2, h3, h4, h5, h6, h7, h8, h9]

theorem step_ready_term {s : PlainState} (e : Event) (hs : Ready s)
    (he : e.isTerminator s.execId = true) :
    CleanedUp (step s e) ∧
      (step s e).outputs =
        s.outputs ++ (if e = Event.timeoutFire then [timeoutItem] else []) ∧
      (step s e).execId = s.execId := by
  obtain ⟨h1, h2, h3, h4, h5, h6, h7, h8, h9⟩ := hs
  cases e with
  | nullData => simp [Event.isTerminator] at he
  | timeoutFire =>
    refine ⟨?_, ?_, ?_⟩ <;>
      simp [step, cleanup, CleanedUp, h1, h2, h3, h4, h5, h6, h7, h8, h9]
  | message eid data =>
    simp only [Event.isTerminator] at he
    cases data with
    | console m args => simp at he
    | errMsg m => simp at he
    | result v => simp at he
    | done =>
      simp only [decide_eq_true_eq] at he
      subst he
      refine ⟨?_, ?_, ?_⟩ <;>
        simp [step, cleanup, CleanedUp, h1, h2, h3, h4, h5, h6, h7, h8, h9]

theorem step_cleaned {s : PlainState} (e : Event) (hs : CleanedUp s) :
    step s e = s := by
  obtain ⟨h1, h2, h3, h4, h5, h6, h7, h8, h9⟩ := hs
  cases e with
  | timeoutFire => simp [step, h5]
  | nullData => rfl
  | message eid data => simp [step, h2]

theorem run_cleaned {s : PlainState} (events : List Event) (hs : CleanedUp s) :
    events.foldl step s = s := by
  induction events with
  | nil => rfl
  | cons e es ih => rw [List.foldl_cons, step_cleaned e hs, ih]

theorem run_ready_no_term {s : PlainState} (events : List Event) (hs : Ready s)
    (h : ∀ e ∈ events, e.isTerminator s.execId = false) :
    Ready (events.foldl step s) ∧
      (events.foldl step s).outputs =
        s.outputs ++ events.flatMap (liveItems s.execId) ∧
      (events.foldl step s).execId = s.execId := by
  induction events generalizing s with
  | nil => exact ⟨hs, by simp, rfl⟩
  | cons e es ih =>
    have he := h e (List.mem_cons_self e es)
    obtain ⟨hr, ho, hid⟩ := step_ready_not_term e hs he
    have hes : ∀ e' ∈ es, e'.isTerminator (step s e).execId = false := by
      intro e' he'
      rw [hid]
      exact h e' (List.mem_cons_of_mem e he')
    obtain ⟨hr', ho', hid'⟩ := ih hr hes
    refine ⟨by rw [List.foldl_cons]; exact hr', ?_, ?_⟩
    · rw [List.foldl_cons, ho', ho, hid]
      simp [List.flatMap_cons, List.append_assoc]
    · rw [List.foldl_cons, hid', hid]

theorem run_ready_term {s : PlainState} (events : List Event) (hs : Ready s)
    (h : ∃ e ∈ events, e.isTerminator s.execId = true) :
    CleanedUp (events.foldl step s) := by
  induction events generalizing s with
  | nil => simp at h
  | cons e es ih =>
    by_cases he : e.isTerminator s.execId = true
    · obtain ⟨hc, -, -⟩ := step_ready_term e hs he
      rw [List.foldl_cons, run_cleaned es hc]
      exact hc
    · have he' : e.isTerminator s.execId = false := by
        simpa using he
      obtain ⟨hr, -, hid⟩ := step_ready_not_term e hs he'
      rw [List.foldl_cons]
      apply ih hr
      obtain ⟨e', hmem, hterm⟩ := h
      rcases List.mem_cons.mp hmem with rfl | hmem'
      · exact absurd hterm (by simp [he'])
      · exact ⟨e', hmem', hid ▸ hterm⟩

theorem initPlainState_ready (execId : String) : Ready (initPlainState execId) := by
  unfold Ready initPlainState; simp

/-- **C1.** For every plain-value invocation, the cleanup actions (removing
the message listener, removing the iframe, revoking the blob URL, resolving
the promise) are each performed exactly once as soon as the event trace
contains a terminating event (a `done` message for this invocation or the
timeout firing) — even when both occur — and are performed zero times as
long as no terminating event has occurred. -/
theorem cleanup_exactly_once (execId : String) (events : List Event) :
    ((∃ e ∈ events, e.isTerminator execId = true) →
      CleanedUp (runEvents execId events)) ∧
    ((∀ e ∈ events, e.isTerminator execId = false) →
      Ready (runEvents execId events)) := by
  constructor
  · intro h
    exact run_ready_term events (initPlainState_ready execId) h
  · intro h
    exact (run_ready_no_term events (initPlainState_ready execId) h).1

/-- Witness for C1: a trace in which `done` arrives and the timeout also
fires afterwards still performs every cleanup action exactly once, and a
terminator-free trace performs none. -/
theorem cleanup_exactly_once_witness :
    CleanedUp (runEvents "exec_1_1"
      [Event.message "exec_1_1" MsgData.done, Event.timeoutFire]) ∧
    Ready (runEvents "exec_1_1"
      [Event.message "exec_1_1" (MsgData.errMsg "boom")]) := by
  constructor
  · exact (cleanup_exactly_once "exec_1_1"
      [Event.message "exec_1_1" MsgData.done, Event.timeoutFire]).1 (by decide)
  · exact (cleanup_exactly_once "exec_1_1"
      [Event.message "exec_1_1" (MsgData.errMsg "boom")]).2 (by decide)

/-- **C2.** When the context does not signal `done` within the budget (the
trace is timeout-free and `done`-free until the timer fires), the timeout
error item is appended, the context is fully torn down, and no event after
the timeout — not even further messages from the same context — produces
any output item; when no prior emitted item already equals the timeout
item, exactly one timeout item appears in the whole output sequence. -/
theorem timeout_tears_down (execId : String) (pre post : List Event)
    (hpre : ∀ e ∈ pre, e.isTerminator execId = false) :
    (runEvents execId (pre ++ Event.timeoutFire :: post)).outputs =
      pre.flatMap (liveItems execId) ++ [timeoutItem] ∧
    CleanedUp (runEvents execId (pre ++ Event.timeoutFire :: post)) ∧
    ((pre.flatMap (liveItems execId)).count timeoutItem = 0 →
      (runEvents execId (pre ++ Event.timeoutFire :: post)).outputs.count
        timeoutItem = 1) := by
  have hinit := initPlainState_ready execId
  obtain ⟨hr, ho, hid⟩ := run_ready_no_term pre hinit (by
    intro e he
    exact hpre e he)
  set s1 := pre.foldl step (initPlainState execId) with hs1
  have hterm : Event.isTerminator s1.execId Event.timeoutFire = true := rfl
  obtain ⟨hc, ho2, hid2⟩ := step_ready_term Event.timeoutFire hr hterm
  have hrun : runEvents execId (pre ++ Event.timeoutFire :: post) =
      post.foldl step (step s1 Event.timeoutFire) := by
    unfold runEvents
    rw [List.foldl_append, List.foldl_cons]
  have hfinal : runEvents execId (pre ++ Event.timeoutFire :: post) =
      step s1 Event.timeoutFire := by
    rw [hrun, run_cleaned post hc]
  have houts : (runEvents execId (pre ++ Event.timeoutFire :: post)).outputs =
      pre.flatMap (liveItems execId) ++ [timeoutItem] := by
    rw [hfinal, ho2, ho]
    simp [initPlainState]
  refine ⟨houts, hfinal ▸ hc, ?_⟩
  intro hzero
  rw [houts, List.count_append, hzero]
  simp

/-- Witness for C2: with no prior message and a post-timeout error message
from the context, the final output is exactly the single timeout item and
the state is torn down. -/
theorem timeout_tears_down_witness :
    (runEvents "exec_1_1"
      [Event.timeoutFire, Event.message "exec_1_1" (MsgData.errMsg "late")]).outputs =
      [timeoutItem] ∧
    CleanedUp (runEvents "exec_1_1"
      [Event.timeoutFire, Event.message "exec_1_1" (MsgData.errMsg "late")]) := by
  have h := timeout_tears_down "exec_1_1" []
    [Event.message "exec_1_1" (MsgData.errMsg "late")] (by decide)
  exact ⟨by simpa using h.1, by simpa using h.2.1⟩

theorem formatValue_single (v : JsValue) : formatValue [v] = formatArg v := rfl

/-- **C5.** The handler's classification of protocol messages for the
awaited invocation: a console message with method `m` and arguments
`a1...an` yields exactly one item of kind `m` whose content is the
independently-stringified arguments joined by single spaces; an error
message yields exactly one `error` item with the message string; a result
message yields exactly one `result` item when the value is defined and no
item when it is `undefined`; `done` yields no item. -/
theorem classify_messages (s : PlainState) (m : ConsoleMethod)
    (args : List JsValue) (msg : String) (v : JsValue)
    (hon : s.listenerOn = true) :
    (step s (Event.message s.execId (MsgData.console m args))).outputs =
      s.outputs ++
        [createOutput m.toKind (String.intercalate " " (args.map formatArg))] ∧
    (step s (Event.message s.execId (MsgData.errMsg msg))).outputs =
      s.outputs ++ [createOutput OutKind.error msg] ∧
    (v ≠ JsValue.jundef →
      (step s (Event.message s.execId (MsgData.result v))).outputs =
        s.outputs ++ [createOutput OutKind.result (formatArg v)]) ∧
    (step s (Event.message s.execId (MsgData.result JsValue.jundef))).outputs =
      s.outputs ∧
    (step s (Event.message s.execId MsgData.done)).outputs = s.outputs := by
  refine ⟨?_, ?_, ?_, ?_, ?_⟩
  · simp [step, hon, classify, formatValue]
  · simp [step, hon, classify]
  · intro hv
    simp [step, hon, classify, hv, formatValue_single]
  · simp [step, hon, classify]
  · simp [step, hon, cleanup_outputs]

/-- Witness for C5: a concrete two-argument `warn` call, error, defined and
undefined results, and `done`, on the initial state. -/
theorem classify_messages_witness :
    (step (initPlainState "e") (Event.message (initPlainState "e").execId
      (MsgData.console ConsoleMethod.warn
        [JsValue.jstr "a", JsValue.jnull]))).outputs =
      [createOutput OutKind.warn "a null"] ∧
    (step (initPlainState "e")
      (Event.message (initPlainState "e").execId
        (MsgData.result JsValue.jundef))).outputs = [] := by
  have h := classify_messages (initPlainState "e") ConsoleMethod.warn
    [JsValue.jstr "a", JsValue.jnull] "m" JsValue.jundef rfl
  refine ⟨?_, ?_⟩
  · rw [h.1]
    decide
  · rw [h.2.2.2.1]
    rfl

/-- `getExecutionId()` from `executor.ts`, made explicit in its two pieces
of ambient state: the current time (`Date.now()`) and the value of the
module-level counter after pre-increment:
`` `exec_${Date.now()}_${++executionCounter}` ``. -/
def getExecutionId (now counter : Nat) : String :=
  "exec_" ++ Nat.repr now ++ "_" ++ Nat.repr counter

/-- One call of `getExecutionId`: `++executionCounter` increments the
module-level counter and the incremented value is interpolated. -/
def nextExecutionId (now counter : Nat) : Nat × String :=
  (counter + 1, getExecutionId now (counter + 1))

theorem digitChar_ne_underscore (n : Nat) : Nat.digitChar n ≠ '_' := by
  by_cases h : n < 16
  · interval_cases n <;> decide
  · unfold Nat.digitChar
    rw [if_neg (by omega : ¬n = 0), if_neg (by omega : ¬n = 1),
      if_neg (by omega : ¬n = 2), if_neg (by omega : ¬n = 3),
      if_neg (by omega : ¬n = 4), if_neg (by omega : ¬n = 5),
      if_neg (by omega : ¬n = 6), if_neg (by omega : ¬n = 7),
      if_neg (by omega : ¬n = 8), if_neg (by omega : ¬n = 9),
      if_neg (by omega : ¬n = 10), if_neg (by omega : ¬n = 11),
      if_neg (by omega : ¬n = 12), if_neg (by omega : ¬n = 13),
      if_neg (by omega : ¬n = 14), if_neg (by omega : ¬n = 15)]
    decide

theorem toDigitsCore_succ_stop (b fuel n : Nat) (ds : List Char)
    (hdiv : n / b = 0) :
    Nat.toDigitsCore b (fuel + 1) n ds = Nat.digitChar (n % b) :: ds := by
  simp [Nat.toDigitsCore, hdiv]

theorem toDigitsCore_succ_go (b fuel n : Nat) (ds : List Char)
    (hdiv : n / b ≠ 0) :
    Nat.toDigitsCore b (fuel + 1) n ds =
      Nat.toDigitsCore b fuel (n / b) (Nat.digitChar (n % b) :: ds) := by
  simp [Nat.toDigitsCore, hdiv]

theorem toDigitsCore_no_underscore (b fuel n : Nat) (ds : List Char)
    (hds : '_' ∉ ds) : '_' ∉ Nat.toDigitsCore b fuel n ds := by
  induction fuel generalizing n ds with
  | zero => exact hds
  | succ fuel ih =>
    have hcons : '_' ∉ Nat.digitChar (n % b) :: ds := by
      intro hmem
      rcases List.mem_cons.mp hmem with h | h
      · exact digitChar_ne_underscore _ h.symm
      · exact hds h
    by_cases hdiv : n / b = 0
    · rw [toDigitsCore_succ_stop b fuel n ds hdiv]
      exact hcons
    · rw [toDigitsCore_succ_go b fuel n ds hdiv]
      exact ih _ _ hcons

theorem repr_no_underscore (n : Nat) : '_' ∉ (Nat.repr n).data := by
  show '_' ∉ (Nat.toDigits 10 n).asString.data
  exact toDigitsCore_no_underscore 10 (n + 1) n [] (by simp)

/-- Decimal digit sequences parse back with `foldl`. -/
def parseDec (l : List Char) : Nat :=
  l.foldl (fun acc c => acc * 10 + (c.toNat - 48)) 0

theorem parseDec_append_singleton (l : List Char) (c : Char) :
    parseDec (l ++ [c]) = parseDec l * 10 + (c.toNat - 48) := by
  unfold parseDec
  rw [List.foldl_append]
  rfl

theorem digitChar_toNat (d : Nat) (hd : d < 10) :
    (Nat.digitChar d).toNat = 48 + d := by
  interval_cases d <;> decide

theorem toDigitsCore_shift (b fuel : Nat) : ∀ (n : Nat) (ds : List Char),
    Nat.toDigitsCore b fuel n ds = Nat.toDigitsCore b fuel n [] ++ ds := by
  induction fuel with
  | zero => intro n ds; simp [Nat.toDigitsCore]
  | succ fuel ih =>
    intro n ds
    by_cases hdiv : n / b = 0
    · rw [toDigitsCore_succ_stop b fuel n ds hdiv,
        toDigitsCore_succ_stop b fuel n [] hdiv]
      simp
    · rw [toDigitsCore_succ_go b fuel n ds hdiv,
        toDigitsCore_succ_go b fuel n [] hdiv,
        ih (n / b) (Nat.digitChar (n % b) :: ds),
        ih (n / b) [Nat.digitChar (n % b)]]
      simp

theorem parseDec_toDigitsCore (fuel : Nat) : ∀ n : Nat, n < fuel →
    parseDec (Nat.toDigitsCore 10 fuel n []) = n := by
  induction fuel with
  | zero => omega
  | succ fuel ih =>
    intro n hn
    have hlt : n % 10 < 10 := Nat.mod_lt n (by omega)
    by_cases hdiv : n / 10 = 0
    · rw [toDigitsCore_succ_stop 10 fuel n [] hdiv]
      have hsmall : n % 10 = n := by omega
      simp only [parseDec, List.foldl_cons, List.foldl_nil]
      rw [hsmall, digitChar_toNat n (by omega)]
      omega
    · rw [toDigitsCore_succ_go 10 fuel n [] hdiv, toDigitsCore_shift,
        parseDec_append_singleton]
      have h1 : n / 10 < n := Nat.div_lt_self (by omega) (by omega)
      rw [ih (n / 10) (by omega), digitChar_toNat _ hlt]
      omega

theorem toDigits_injective {n m : Nat}
    (h : Nat.toDigits 10 n = Nat.toDigits 10 m) : n = m := by
  have hn := parseDec_toDigitsCore (n + 1) n (by omega)
  have hm := parseDec_toDigitsCore (m + 1) m (by omega)
  unfold Nat.toDigits at h
  rw [← hn, ← hm, h]

theorem underscore_split {a c : List Char} (b d : List Char)
    (ha : '_' ∉ a) (hc : '_' ∉ c)
    (h : a ++ '_' :: b = c ++ '_' :: d) : a = c ∧ b = d := by
  induction a generalizing c with
  | nil =>
    cases c with
    | nil => simpa using h
    | cons y ys =>
      simp only [List.nil_append, List.cons_append, List.cons.injEq] at h
      exact absurd (h.1 ▸ List.mem_cons_self y ys) hc
  | cons x xs ih =>
    cases c with
    | nil =>
      simp only [List.cons_append, List.nil_append, List.cons.injEq] at h
      exact absurd (h.1 ▸ List.mem_cons_self x xs) ha
    | cons y ys =>
      simp only [List.cons_append, List.cons.injEq] at h
      have hxs : '_' ∉ xs := fun hm => ha (List.mem_cons_of_mem x hm)
      have hys : '_' ∉ ys := fun hm => hc (List.mem_cons_of_mem y hm)
      obtain ⟨he, hb⟩ := ih hxs hys h.2
      exact ⟨by rw [h.1, he], hb⟩

theorem getExecutionId_inj {t1 c1 t2 c2 : Nat} (h : c1 ≠ c2) :
    getExecutionId t1 c1 ≠ getExecutionId t2 c2 := by
  intro he
  apply h
  have hdata := congrArg String.data he
  simp only [getExecutionId, String.data_append] at hdata
  have hdata' : (Nat.repr t1).data ++ '_' :: (Nat.repr c1).data =
      (Nat.repr t2).data ++ '_' :: (Nat.repr c2).data := by
    simpa [List.append_assoc] using hdata
  obtain ⟨-, hcd⟩ := underscore_split _ _ (repr_no_underscore t1)
    (repr_no_underscore t2) hdata'
  exact toDigits_injective hcd

/-- **C3.** A message whose correlation id differs from the invocation's own
id is completely inert (no output, no state change); the generator's counter
strictly increases on every invocation; and any two invocations with
distinct counter values receive distinct execution-id strings (values are
never reused). -/
theorem correlation_filter_and_unique_ids (s : PlainState) (eid : String)
    (d : MsgData) (t1 c1 t2 c2 now ctr : Nat) (hne : eid ≠ s.execId)
    (hc : c1 ≠ c2) :
    step s (Event.message eid d) = s ∧
    ctr < (nextExecutionId now ctr).1 ∧
    getExecutionId t1 c1 ≠ getExecutionId t2 c2 := by
  refine ⟨?_, ?_, getExecutionId_inj hc⟩
  · unfold step
    by_cases hon : s.listenerOn <;> simp [hon, hne]
  · simp [nextExecutionId]

/-- Witness for C3: a foreign-id message leaves the freshly initialized
state untouched, and two successive counter values yield distinct ids. -/
theorem correlation_filter_and_unique_ids_witness :
    step (initPlainState "exec_5_1") (Event.message "exec_5_2" MsgData.done) =
      initPlainState "exec_5_1" ∧
    getExecutionId 5 1 ≠ getExecutionId 5 2 := by
  have h := correlation_filter_and_unique_ids (initPlainState "exec_5_1")
    "exec_5_2" MsgData.done 5 1 5 2 0 0 (by decide) (by decide)
  exact ⟨h.1, h.2.2⟩

/-! ## Import rewriting

`transformImports` runs
`code.replace(/import\s+(.+?)\s+from\s+['"]([^'"./][^'"]*)['"]/g, ...)`,
rewriting each matched bare specifier to `https://esm.sh/<pkg>` unless the
specifier starts with `http`.  The embedding implements the ECMAScript
regex semantics for this fixed pattern: leftmost search, greedy `\s+`
(longest alternative first), lazy `(.+?)` (shortest first), and the
deterministic character classes of the specifier part. -/

/-- JavaScript `\s` (no `u` flag): ASCII whitespace, NBSP, Ogham space,
the U+2000–U+200A range, LS, PS, NNBSP, MMSP, ideographic space, BOM. -/
def isJsWs (c : Char) : Bool :=
  c == ' ' || c == '\t' || c == '\n' || c == '\x0b' || c == '\x0c' ||
  c == '\r' || c == '\u00A0' || c == '\u1680' ||
  decide (0x2000 ≤ c.toNat ∧ c.toNat ≤ 0x200a) ||
  c == '\u2028' || c == '\u2029' || c == '\u202F' || c == '\u205F' ||
  c == '\u3000' || c == '\uFEFF'

/-- JavaScript `.` without the `s` flag: anything but a line terminator. -/
def isDotCh (c : Char) : Bool :=
  !(c == '\n' || c == '\r' || c == '\u2028' || c == '\u2029')

/-- The class `[^'"./]` of the specifier's first character. -/
def isSpecFirst (c : Char) : Bool :=
  !(c == '\x27' || c == '\x22' || c == '.' || c == '/')

/-- The class `[^'"]` of the specifier's remaining characters. -/
def isSpecTail (c : Char) : Bool :=
  !(c == '\x27' || c == '\x22')

/-- A quote character, `['"]`. -/
def isQuote (c : Char) : Bool :=
  c == '\x27' || c == '\x22'

/-- First `some` result of `f` along a list of candidates, in order — the
backtracking engine's alternative-preference order. -/
def firstSome {α β : Type} (f : α → Option β) : List α → Option β
  | [] => none
  | a :: l =>
    match f a with
    | some b => some b
    | none => firstSome f l

/-- Strip an exact literal, or fail. -/
def dropLit : List Char → List Char → Option (List Char)
  | [], s => some s
  | _ :: _, [] => none
  | p :: ps, c :: cs => if c = p then dropLit ps cs else none

/-- `[m, m-1, ..., 1]`. -/
def downFrom : Nat → List Nat
  | 0 => []
  | m + 1 => (m + 1) :: downFrom m

/-- `[start, start+1, ..., start+count-1]`. -/
def upTo (start : Nat) : Nat → List Nat
  | 0 => []
  | count + 1 => start :: upTo (start + 1) count

/-- Candidate lengths for a greedy `\s+` at this position: the maximal
whitespace run first, shorter on backtracking, never zero. -/
def wsLens (s : List Char) : List Nat :=
  downFrom (s.takeWhile isJsWs).length

/-- Candidate lengths for the lazy `(.+?)` at this position: one character
first, longer on backtracking, bounded by the line-terminator-free run. -/
def dotLens (s : List Char) : List Nat :=
  upTo 1 (s.takeWhile isDotCh).length

def importLit : List Char := ['i', 'm', 'p', 'o', 'r', 't']

def fromLit : List Char := ['f', 'r', 'o', 'm']

/-- A successful match of the import pattern: the two capture groups and
the remainder of the input after the match. -/
structure ImportMatch where
  imports : List Char
  spec : List Char
  rest : List Char
deriving DecidableEq, Repr

/-- The final `['"]([^'"./][^'"]*)['"]` piece of the pattern: an opening
quote, the specifier (first character outside `'"./`, rest outside `'"`,
taken greedily), the closing quote.  Returns the specifier capture and the
remainder after the match. -/
def quoteSpec : List Char → Option (List Char × List Char)
  | q :: s7 =>
    if isQuote q then
      match s7 with
      | c1 :: s8 =>
        if isSpecFirst c1 then
          match s8.dropWhile isSpecTail with
          | q2 :: s9 =>
            if isQuote q2 then some (c1 :: s8.takeWhile isSpecTail, s9)
            else none
          | [] => none
        else none
      | [] => none
    else none
  | [] => none

/-- The `\s+from\s+['"]...['"]` piece that must follow the lazy capture:
greedy `\s+` (longest first), the literal `from`, greedy `\s+`, then the
quoted specifier. -/
def fromQuote (s3 : List Char) : Option (List Char × List Char) :=
  firstSome (fun w2 =>
    (dropLit fromLit (s3.drop w2)).bind fun s5 =>
    firstSome (fun w3 => quoteSpec (s5.drop w3)) (wsLens s5))
    (wsLens s3)

/-- The lazy `(.+?)` capture followed by `fromQuote`: shortest capture
first, the capture bounded by the line-terminator-free run. -/
def lazyCapture (s2 : List Char) : Option ImportMatch :=
  firstSome (fun a =>
    (fromQuote (s2.drop a)).map fun pr => ⟨s2.take a, pr.1, pr.2⟩)
    (dotLens s2)

/-- Everything after the `import` literal: greedy `\s+`, then the lazy
capture and the rest of the pattern. -/
def postImport (s1 : List Char) : Option ImportMatch :=
  firstSome (fun w1 => lazyCapture (s1.drop w1)) (wsLens s1)

/-- Attempt to match `import\s+(.+?)\s+from\s+['"]([^'"./][^'"]*)['"]` at
the head of `s`, with the engine's backtracking order. -/
def matchImportAt (s : List Char) : Option ImportMatch :=
  (dropLit importLit s).bind postImport

/-- The string the replacer callback returns for one match: the match
itself when the specifier starts with `http`, otherwise
`import ${imports} from 'https://esm.sh/${pkg}'`. -/
def importReplacement (s : List Char) (m : ImportMatch) : List Char :=
  if m.spec.take 4 = ['h', 't', 't', 'p'] then
    s.take (s.length - m.rest.length)
  else
    "import ".data ++ m.imports ++ " from \x27https://esm.sh/".data ++
      m.spec ++ ['\x27']

/-- Global replacement: scan left to right, replace each leftmost match and
continue after it.  Fuel is an upper bound on steps; every step consumes at
least one character, so the input length suffices. -/
def scanImports : Nat → List Char → List Char
  | 0, s => s
  | _ + 1, [] => []
  | fuel + 1, c :: cs =>
    match matchImportAt (c :: cs) with
    | some m => importReplacement (c :: cs) m ++ scanImports fuel m.rest
    | none => c :: scanImports fuel cs

/-- `transformImports(code)` from `executor.ts`. -/
def transformImports (code : String) : String :=
  ⟨scanImports code.data.length code.data⟩

theorem firstSome_cons_some {α β : Type} {f : α → Option β} {a : α}
    {l : List α} {r : β} (h : f a = some r) :
    firstSome f (a :: l) = some r := by
  simp [firstSome, h]

theorem firstSome_cons_none {α β : Type} {f : α → Option β} {a : α}
    {l : List α} (h : f a = none) :
    firstSome f (a :: l) = firstSome f l := by
  simp [firstSome, h]

theorem firstSome_upTo_some {β : Type} (f : Nat → Option β) (count : Nat) :
    ∀ (start k : Nat) (r : β), k < count → (∀ i, i < k → f (start + i) = none) →
    f (start + k) = some r → firstSome f (upTo start count) = some r := by
  induction count with
  | zero => omega
  | succ count ih =>
    intro start k r hk hnone hsome
    unfold upTo
    cases k with
    | zero =>
      exact firstSome_cons_some (by simpa using hsome)
    | succ k =>
      rw [firstSome_cons_none (by simpa using hnone 0 (by omega))]
      refine ih (start + 1) k r (by omega) ?_ ?_
      · intro i hi
        have := hnone (i + 1) (by omega)
        simpa [Nat.add_assoc, Nat.add_comm 1 i] using this
      · have : start + 1 + k = start + (k + 1) := by omega
        rw [this]
        exact hsome

theorem firstSome_upTo_none {β : Type} (f : Nat → Option β) (count : Nat) :
    ∀ start : Nat, (∀ i, i < count → f (start + i) = none) →
    firstSome f (upTo start count) = none := by
  induction count with
  | zero => intro start _; rfl
  | succ count ih =>
    intro start h
    unfold upTo
    rw [firstSome_cons_none (by simpa using h 0 (by omega))]
    refine ih (start + 1) ?_
    intro i hi
    have := h (i + 1) (by omega)
    simpa [Nat.add_assoc, Nat.add_comm 1 i] using this

theorem dropLit_self_append (p s : List Char) : dropLit p (p ++ s) = some s := by
  induction p with
  | nil => rfl
  | cons c cs ih => simpa [dropLit] using ih

theorem takeWhile_all {p : Char → Bool} {l : List Char}
    (h : ∀ x ∈ l, p x = true) : l.takeWhile p = l := by
  induction l with
  | nil => rfl
  | cons c cs ih =>
    rw [List.takeWhile_cons, h c (List.mem_cons_self c cs)]
    simp [ih fun x hx => h x (List.mem_cons_of_mem c hx)]

theorem takeWhile_cons_neg {p : Char → Bool} {c : Char} (l : List Char)
    (h : p c = false) : (c :: l).takeWhile p = [] := by
  simp [List.takeWhile_cons, h]

theorem takeWhile_append_stop {p : Char → Bool} {xs : List Char} {y : Char}
    (ys : List Char) (hxs : ∀ x ∈ xs, p x = true) (hy : p y = false) :
    (xs ++ y :: ys).takeWhile p = xs ∧ (xs ++ y :: ys).dropWhile p = y :: ys := by
  induction xs with
  | nil => simp [List.takeWhile_cons, List.dropWhile_cons, hy]
  | cons x xs ih =>
    have hx := hxs x (List.mem_cons_self x xs)
    have hxs' : ∀ x' ∈ xs, p x' = true := fun x' hx' =>
      hxs x' (List.mem_cons_of_mem x hx')
    obtain ⟨h1, h2⟩ := ih hxs'
    constructor
    · simpa [List.takeWhile_cons, hx] using h1
    · simpa [List.dropWhile_cons, hx] using h2

theorem wsLens_nil : wsLens [] = [] := rfl

theorem wsLens_cons_neg {c : Char} (l : List Char) (h : isJsWs c = false) :
    wsLens (c :: l) = [] := by
  unfold wsLens
  rw [takeWhile_cons_neg l h]
  rfl

theorem wsLens_single {c d : Char} (l : List Char) (hc : isJsWs c = true)
    (hd : isJsWs d = false) : wsLens (c :: d :: l) = [1] := by
  unfold wsLens
  rw [List.takeWhile_cons, hc]
  simp [takeWhile_cons_neg l hd, downFrom]

theorem isDotCh_of_not_ws (c : Char) (h : isJsWs c = false) :
    isDotCh c = true := by
  by_cases h1 : c = '\n'
  · subst h1; exact absurd h (by decide)
  · by_cases h2 : c = '\r'
    · subst h2; exact absurd h (by decide)
    · by_cases h3 : c = '\u2028'
      · subst h3; exact absurd h (by decide)
      · by_cases h4 : c = '\u2029'
        · subst h4; exact absurd h (by decide)
        · simp [isDotCh, h1, h2, h3, h4]

/-! ### Generic facts about the combinators -/

theorem firstSome_all_none {α β : Type} {f : α → Option β} (l : List α)
    (h : ∀ x ∈ l, f x = none) : firstSome f l = none := by
  induction l with
  | nil => rfl
  | cons a l ih =>
    rw [firstSome_cons_none (h a (List.mem_cons_self a l))]
    exact ih fun x hx => h x (List.mem_cons_of_mem a hx)

theorem firstSome_some_exists {α β : Type} {f : α → Option β} :
    ∀ {l : List α} {r : β}, firstSome f l = some r → ∃ a ∈ l, f a = some r := by
  intro l
  induction l with
  | nil => intro r h; exact absurd h (by simp [firstSome])
  | cons a l ih =>
    intro r h
    cases hfa : f a with
    | some b =>
      rw [firstSome_cons_some hfa] at h
      exact ⟨a, List.mem_cons_self a l, hfa.trans h⟩
    | none =>
      rw [firstSome_cons_none hfa] at h
      obtain ⟨x, hx, hfx⟩ := ih h
      exact ⟨x, List.mem_cons_of_mem a hx, hfx⟩

theorem mem_downFrom (w m : Nat) : w ∈ downFrom m ↔ 1 ≤ w ∧ w ≤ m := by
  induction m with
  | zero =>
    simp only [downFrom, List.not_mem_nil, false_iff]
    omega
  | succ m ih =>
    simp only [downFrom, List.mem_cons, ih]
    omega

theorem mem_upTo {a : Nat} : ∀ {start count : Nat},
    a ∈ upTo start count → start ≤ a ∧ a < start + count := by
  intro start count
  induction count generalizing start with
  | zero => intro h; exact absurd h (by simp [upTo])
  | succ count ih =>
    intro h
    simp only [upTo, List.mem_cons] at h
    rcases h with rfl | h
    · omega
    · have := ih h
      omega

theorem dropLit_eq_drop (lit : List Char) : ∀ (s r : List Char),
    dropLit lit s = some r → r = s.drop lit.length := by
  induction lit with
  | nil =>
    intro s r h
    simp only [dropLit] at h
    rw [List.length_nil, List.drop_zero]
    exact (Option.some.inj h).symm
  | cons p ps ih =>
    intro s r h
    cases s with
    | nil => exact absurd h (by simp [dropLit])
    | cons c cs =>
      by_cases hc : c = p
      · simp only [dropLit, if_pos hc] at h
        rw [List.length_cons, List.drop_succ_cons]
        exact ih cs r h
      · simp only [dropLit, if_neg hc] at h
        exact Option.noConfusion h

theorem dropLit_length {lit : List Char} : ∀ {s r : List Char},
    dropLit lit s = some r → s.length = lit.length + r.length := by
  induction lit with
  | nil =>
    intro s r h
    simp only [dropLit] at h
    rw [Option.some.inj h]
    simp
  | cons p ps ih =>
    intro s r h
    cases s with
    | nil => exact absurd h (by simp [dropLit])
    | cons c cs =>
      by_cases hc : c = p
      · simp only [dropLit, if_pos hc] at h
        have := ih h
        simp only [List.length_cons]
        omega
      · simp only [dropLit, if_neg hc] at h
        exact Option.noConfusion h

theorem dropLit_append_some {lit x r : List Char} (y : List Char)
    (h : dropLit lit x = some r) : dropLit lit (x ++ y) = some (r ++ y) := by
  induction lit generalizing x with
  | nil =>
    simp only [dropLit] at h ⊢
    rw [Option.some.inj h]
  | cons p ps ih =>
    cases x with
    | nil => exact absurd h (by simp [dropLit])
    | cons c cs =>
      by_cases hc : c = p
      · simp only [List.cons_append, dropLit, if_pos hc] at h ⊢
        exact ih h
      · simp only [dropLit, if_neg hc] at h
        exact Option.noConfusion h

theorem dropLit_append_notin {lit x : List Char} {d : Char} (ys : List Char)
    (hd : ∀ c ∈ lit, c ≠ d) (h : dropLit lit x = none) :
    dropLit lit (x ++ d :: ys) = none := by
  induction lit generalizing x with
  | nil => simp [dropLit] at h
  | cons p ps ih =>
    cases x with
    | nil =>
      have hdp : ¬ d = p := fun hdp =>
        hd p (List.mem_cons_self p ps) hdp.symm
      simp [dropLit, hdp]
    | cons c cs =>
      by_cases hc : c = p
      · simp only [List.cons_append, dropLit, if_pos hc] at h ⊢
        exact ih (fun c' hm => hd c' (List.mem_cons_of_mem p hm)) h
      · simp [List.cons_append, dropLit, if_neg hc]

theorem takeWhile_append_all {p : Char → Bool} {x : List Char} (y : List Char)
    (h : ∀ c ∈ x, p c = true) :
    (x ++ y).takeWhile p = x ++ y.takeWhile p := by
  induction x with
  | nil => rfl
  | cons c cs ih =>
    rw [List.cons_append, List.takeWhile_cons, h c (List.mem_cons_self c cs)]
    simp [ih fun c' hc' => h c' (List.mem_cons_of_mem c hc')]

theorem dropWhile_head_not {p : Char → Bool} : ∀ (l : List Char) (c : Char)
    (t : List Char), l.dropWhile p = c :: t → p c = false := by
  intro l
  induction l with
  | nil => intro c t h; exact absurd h (by simp)
  | cons a l ih =>
    intro c t h
    by_cases ha : p a = true
    · rw [List.dropWhile_cons, if_pos ha] at h
      exact ih c t h
    · rw [List.dropWhile_cons, if_neg ha] at h
      injection h with h1 _
      subst h1
      simpa using ha

theorem takeWhile_append_of_stop {p : Char → Bool} {x : List Char}
    (y : List Char) (h : x.dropWhile p ≠ []) :
    (x ++ y).takeWhile p = x.takeWhile p ∧
    (x ++ y).dropWhile p = x.dropWhile p ++ y := by
  obtain ⟨c, t, hct⟩ : ∃ c t, x.dropWhile p = c :: t := by
    cases hx : x.dropWhile p with
    | nil => exact absurd hx h
    | cons c t => exact ⟨c, t, rfl⟩
  have hpc : p c = false := dropWhile_head_not x c t hct
  have hall : ∀ a ∈ x.takeWhile p, p a = true := fun a ha =>
    List.mem_takeWhile_imp ha
  have hsplit : x = x.takeWhile p ++ c :: t := by
    rw [← hct, List.takeWhile_append_dropWhile]
  obtain ⟨ht1, hd1⟩ := takeWhile_append_stop (t ++ y) hall hpc
  have key1 : ((x.takeWhile p ++ c :: t) ++ y).takeWhile p = x.takeWhile p := by
    rw [List.append_assoc, List.cons_append]
    exact ht1
  have key2 : ((x.takeWhile p ++ c :: t) ++ y).dropWhile p = (c :: t) ++ y := by
    rw [List.append_assoc, List.cons_append, hd1]
  constructor
  · rw [show x ++ y = (x.takeWhile p ++ c :: t) ++ y from by rw [← hsplit]]
    exact key1
  · rw [show x ++ y = (x.takeWhile p ++ c :: t) ++ y from by rw [← hsplit]]
    rw [key2, hct]

theorem takeWhile_length_lt {p : Char → Bool} {x : List Char}
    (h : x.dropWhile p ≠ []) : (x.takeWhile p).length < x.length := by
  have h1 : x.takeWhile p ++ x.dropWhile p = x :=
    List.takeWhile_append_dropWhile p x
  have h2 : (x.takeWhile p).length + (x.dropWhile p).length = x.length := by
    rw [← List.length_append, h1]
  have h3 : 0 < (x.dropWhile p).length := List.length_pos.mpr h
  omega

/-! ### Character-class facts -/

theorem isQuote_cases {q : Char} (h : isQuote q = true) :
    q = '\x27' ∨ q = '\x22' := by
  simpa [isQuote] using h

theorem isQuote_not_ws {q : Char} (h : isQuote q = true) :
    isJsWs q = false := by
  rcases isQuote_cases h with rfl | rfl <;> decide

theorem isQuote_dot {q : Char} (h : isQuote q = true) :
    isDotCh q = true := by
  rcases isQuote_cases h with rfl | rfl <;> decide

theorem importLit_ne_quote {q : Char} (h : isQuote q = true) :
    ∀ c ∈ importLit, c ≠ q := by
  rcases isQuote_cases h with rfl | rfl <;> decide

/-! ### The statement family

A well-formed `import <bindings> from <quote><specifier><quote>` statement,
with the side conditions on the bindings and the specifier under which the
regex behaves like a per-statement rewriter. -/

/-- No nonempty suffix of `b` that starts inside `b` is entirely
whitespace; for nonempty `b` this says the last character of `b` is not
whitespace, in a form stable under taking suffixes. -/
def noWsSuffix (b : List Char) : Prop :=
  ∀ k < b.length, (b.drop k).dropWhile isJsWs ≠ []

instance (b : List Char) : Decidable (noWsSuffix b) := by
  unfold noWsSuffix
  infer_instance

/-- At every whitespace run inside `b`, the text right after the run does
not begin with the literal `from` — this keeps the `\s+from\s+` tail of
the pattern from anchoring inside the bindings.  `{ a, b }` qualifies,
`x from y` does not. -/
def noWsFrom (b : List Char) : Prop :=
  ∀ k < b.length, (b.drop k).takeWhile isJsWs ≠ [] →
    dropLit fromLit ((b.drop k).dropWhile isJsWs) = none

instance (b : List Char) : Decidable (noWsFrom b) := by
  unfold noWsFrom
  infer_instance

theorem noWsSuffix_drop {b : List Char} (k : Nat) (h : noWsSuffix b) :
    noWsSuffix (b.drop k) := by
  intro j hj
  rw [List.drop_drop]
  rw [List.length_drop] at hj
  exact h (k + j) (by omega)

theorem noWsFrom_drop {b : List Char} (k : Nat) (h : noWsFrom b) :
    noWsFrom (b.drop k) := by
  intro j hj
  rw [List.drop_drop]
  rw [List.length_drop] at hj
  exact h (k + j) (by omega)

/-- Head of the list is not whitespace (vacuously true for `[]`). -/
def headNotWs : List Char → Prop
  | [] => True
  | c :: _ => isJsWs c = false

instance : (b : List Char) → Decidable (headNotWs b)
  | [] => isTrue trivial
  | c :: _ => inferInstanceAs (Decidable (isJsWs c = false))

/-- Well-formed bindings capture: nonempty, on a single line, not starting
or ending with whitespace, and no internal whitespace run immediately
followed by the literal `from`. -/
def BindOK (b : List Char) : Prop :=
  b ≠ [] ∧ (∀ c ∈ b, isDotCh c = true) ∧ headNotWs b ∧
    noWsSuffix b ∧ noWsFrom b

instance (b : List Char) : Decidable (BindOK b) := by
  unfold BindOK
  infer_instance

/-- Well-formed specifier: nonempty, no whitespace, no quotes. -/
def SpecOK (s : List Char) : Prop :=
  s ≠ [] ∧ ∀ c ∈ s, isJsWs c = false ∧ isSpecTail c = true

instance (s : List Char) : Decidable (SpecOK s) := by
  unfold SpecOK
  infer_instance

/-- The trailing context we allow after one statement: nothing, or a
newline followed by the next `import` statement. -/
def tailOK (T : List Char) : Prop :=
  T = [] ∨ ∃ T2, T = '\n' :: 'i' :: T2

/-- The characters `" from <q1><spec><q2>"` following the bindings, with
trailing context `T`. -/
def segFromT (spec : List Char) (q1 q2 : Char) (T : List Char) : List Char :=
  ' ' :: 'f' :: 'r' :: 'o' :: 'm' :: ' ' :: q1 :: (spec ++ q2 :: T)

/-- One `import <bind> from <q1><spec><q2>` statement. -/
structure Stmt where
  bind : List Char
  spec : List Char
  q1 : Char
  q2 : Char

/-- The statement's text. -/
def stmtOf (st : Stmt) : List Char :=
  importLit ++ ' ' :: (st.bind ++ segFromT st.spec st.q1 st.q2 [])

/-- The statement's text followed by trailing context `T`. -/
def stmtText (st : Stmt) (T : List Char) : List Char :=
  importLit ++ ' ' :: (st.bind ++ segFromT st.spec st.q1 st.q2 T)

theorem stmtOf_append (st : Stmt) (T : List Char) :
    stmtOf st ++ T = stmtText st T := by
  simp [stmtOf, stmtText, segFromT]

theorem stmtOf_length (st : Stmt) :
    (stmtOf st).length = st.bind.length + st.spec.length + 15 := by
  unfold stmtOf segFromT importLit
  simp only [List.length_append, List.length_cons, List.length_nil]
  omega

/-- Well-formed statement. -/
def StmtOK (st : Stmt) : Prop :=
  BindOK st.bind ∧ SpecOK st.spec ∧
    isQuote st.q1 = true ∧ isQuote st.q2 = true

instance (st : Stmt) : Decidable (StmtOK st) := by
  unfold StmtOK
  infer_instance

/-- What one pass of the rewriter turns a single statement into: a bare
specifier (first character outside the class `'"./`, not `http`-prefixed)
is replaced by `https://esm.sh/` plus the specifier, with single quotes
and single spaces; `http`-prefixed and relative or absolute specifiers
leave the statement unchanged. -/
def rewriteStmt (st : Stmt) : List Char :=
  if isSpecFirst (st.spec.headD '.') = false then stmtOf st
  else if st.spec.take 4 = ['h', 't', 't', 'p'] then stmtOf st
  else "import ".data ++ st.bind ++ " from \x27https://esm.sh/".data ++
    st.spec ++ ['\x27']

/-- Newline-separated statements. -/
def joinStmts : List Stmt → List Char
  | [] => []
  | [st] => stmtOf st
  | st :: st2 :: rest => stmtOf st ++ '\n' :: joinStmts (st2 :: rest)

/-- Newline-separated rewritten statements. -/
def joinRewrites : List Stmt → List Char
  | [] => []
  | [st] => rewriteStmt st
  | st :: st2 :: rest => rewriteStmt st ++ '\n' :: joinRewrites (st2 :: rest)

theorem rewriteStmt_bare {st : Stmt} {c1 : Char} {cs : List Char}
    (hS : st.spec = c1 :: cs) (h1 : isSpecFirst c1 = true)
    (hh : st.spec.take 4 ≠ ['h', 't', 't', 'p']) :
    rewriteStmt st = "import ".data ++ st.bind ++
      " from \x27https://esm.sh/".data ++ st.spec ++ ['\x27'] := by
  rw [hS] at hh
  unfold rewriteStmt
  rw [hS, List.headD_cons]
  rw [if_neg (by simp [h1]), if_neg hh]

theorem rewriteStmt_http {st : Stmt} {c1 : Char} {cs : List Char}
    (hS : st.spec = c1 :: cs) (h1 : isSpecFirst c1 = true)
    (hh : st.spec.take 4 = ['h', 't', 't', 'p']) :
    rewriteStmt st = stmtOf st := by
  rw [hS] at hh
  unfold rewriteStmt
  rw [hS, List.headD_cons]
  rw [if_neg (by simp [h1]), if_pos hh]

theorem rewriteStmt_rel {st : Stmt} {c1 : Char} {cs : List Char}
    (hS : st.spec = c1 :: cs) (h1 : isSpecFirst c1 = false) :
    rewriteStmt st = stmtOf st := by
  unfold rewriteStmt
  rw [hS, List.headD_cons]
  rw [if_pos h1]

/-! ### Where the pattern pieces succeed and fail -/

theorem fromBody_none {s3 : List Char} (w : Nat)
    (h : dropLit fromLit (s3.drop w) = none) :
    (dropLit fromLit (s3.drop w)).bind
      (fun s5 => firstSome (fun w3 => quoteSpec (s5.drop w3)) (wsLens s5)) =
      none := by
  rw [h]
  rfl

theorem lazyBody_none {s2 : List Char} (a : Nat)
    (h : fromQuote (s2.drop a) = none) :
    (fromQuote (s2.drop a)).map
      (fun pr => (⟨s2.take a, pr.1, pr.2⟩ : ImportMatch)) = none := by
  rw [h]
  rfl

theorem quoteSpec_bare {q1 q2 c1 : Char} {cs : List Char} (T : List Char)
    (hq1 : isQuote q1 = true) (hq2 : isQuote q2 = true)
    (h1 : isSpecFirst c1 = true)
    (hcs : ∀ c ∈ cs, isSpecTail c = true) :
    quoteSpec (q1 :: c1 :: (cs ++ q2 :: T)) = some (c1 :: cs, T) := by
  have hq2t : isSpecTail q2 = false := by
    rcases isQuote_cases hq2 with rfl | rfl <;> decide
  obtain ⟨ht, hd⟩ := takeWhile_append_stop T hcs hq2t
  simp [quoteSpec, hq1, h1, hq2, hd, ht]

theorem quoteSpec_relative {q1 c1 : Char} (s8 : List Char)
    (hq1 : isQuote q1 = true) (h1 : isSpecFirst c1 = false) :
    quoteSpec (q1 :: c1 :: s8) = none := by
  simp [quoteSpec, hq1, h1]

theorem fromQuote_nil : fromQuote [] = none := rfl

theorem fromQuote_cons_neg {c : Char} (l : List Char)
    (h : isJsWs c = false) : fromQuote (c :: l) = none := by
  unfold fromQuote
  rw [wsLens_cons_neg l h]
  rfl

theorem fromQuote_tail_none {T : List Char} (h : tailOK T) :
    fromQuote T = none := by
  rcases h with rfl | ⟨T2, rfl⟩
  · rfl
  · unfold fromQuote
    rw [wsLens_single T2 (by decide) (by decide)]
    refine (firstSome_cons_none ?_).trans rfl
    exact fromBody_none 1 (by simp [dropLit, fromLit])

theorem fromQuote_space_quote {q : Char} (l : List Char)
    (hq : isQuote q = true) : fromQuote (' ' :: q :: l) = none := by
  unfold fromQuote
  rw [wsLens_single l (by decide) (isQuote_not_ws hq)]
  refine (firstSome_cons_none ?_).trans rfl
  refine fromBody_none 1 ?_
  rw [List.drop_succ_cons, List.drop_zero]
  rcases isQuote_cases hq with rfl | rfl <;> simp [dropLit, fromLit]

theorem fromQuote_seg_bare {q1 q2 c1 : Char} {cs : List Char} (T : List Char)
    (hq1 : isQuote q1 = true) (hq2 : isQuote q2 = true)
    (h1 : isSpecFirst c1 = true)
    (hcs : ∀ c ∈ cs, isSpecTail c = true) :
    fromQuote (segFromT (c1 :: cs) q1 q2 T) = some (c1 :: cs, T) := by
  unfold fromQuote segFromT
  rw [wsLens_single _ (by decide) (by decide)]
  apply firstSome_cons_some
  simp only [List.drop_succ_cons, List.drop_zero]
  rw [show 'f' :: 'r' :: 'o' :: 'm' :: ' ' :: q1 :: ((c1 :: cs) ++ q2 :: T) =
    fromLit ++ (' ' :: q1 :: ((c1 :: cs) ++ q2 :: T)) from rfl]
  rw [dropLit_self_append, Option.some_bind]
  rw [wsLens_single _ (by decide) (isQuote_not_ws hq1)]
  apply firstSome_cons_some
  simp only [List.drop_succ_cons, List.drop_zero]
  rw [List.cons_append]
  exact quoteSpec_bare T hq1 hq2 h1 hcs

theorem fromQuote_seg_relative {q1 q2 c1 : Char} {cs : List Char}
    (T : List Char) (hq1 : isQuote q1 = true) (h1 : isSpecFirst c1 = false) :
    fromQuote (segFromT (c1 :: cs) q1 q2 T) = none := by
  unfold fromQuote segFromT
  rw [wsLens_single _ (by decide) (by decide)]
  refine (firstSome_cons_none ?_).trans rfl
  simp only [List.drop_succ_cons, List.drop_zero]
  rw [show 'f' :: 'r' :: 'o' :: 'm' :: ' ' :: q1 :: ((c1 :: cs) ++ q2 :: T) =
    fromLit ++ (' ' :: q1 :: ((c1 :: cs) ++ q2 :: T)) from rfl]
  rw [dropLit_self_append, Option.some_bind]
  rw [wsLens_single _ (by decide) (isQuote_not_ws hq1)]
  refine (firstSome_cons_none ?_).trans rfl
  simp only [List.drop_succ_cons, List.drop_zero]
  rw [List.cons_append]
  exact quoteSpec_relative _ hq1 h1

theorem fromQuote_seg_drop {S : List Char} {q1 q2 : Char} {T : List Char}
    (hq1 : isQuote q1 = true) (hq2 : isQuote q2 = true)
    (hSw : ∀ c ∈ S, isJsWs c = false) (hT : tailOK T) :
    ∀ k, 1 ≤ k → k ≤ S.length + 8 →
      fromQuote ((segFromT S q1 q2 T).drop k) = none := by
  intro k hk1 hk2
  by_cases hk7 : k < 7
  · interval_cases k
    · exact fromQuote_cons_neg _ (by decide)
    · exact fromQuote_cons_neg _ (by decide)
    · exact fromQuote_cons_neg _ (by decide)
    · exact fromQuote_cons_neg _ (by decide)
    · exact fromQuote_space_quote _ hq1
    · exact fromQuote_cons_neg _ (isQuote_not_ws hq1)
  · obtain ⟨j, rfl⟩ : ∃ j, k = 7 + j := ⟨k - 7, by omega⟩
    rw [← List.drop_drop]
    rw [show (segFromT S q1 q2 T).drop 7 = S ++ q2 :: T from rfl]
    by_cases hj : j < S.length
    · rw [List.drop_append_of_le_length (by omega)]
      obtain ⟨d, u, hdu⟩ := List.exists_cons_of_ne_nil
        (show S.drop j ≠ [] from fun h => by
          rw [List.drop_eq_nil_iff] at h; omega)
      rw [hdu, List.cons_append]
      exact fromQuote_cons_neg _ (hSw d (List.drop_subset _ _
        (show d ∈ S.drop j from by
          rw [hdu]; exact List.mem_cons_self d u)))
    · by_cases hj2 : j = S.length
      · subst hj2
        rw [List.drop_left]
        exact fromQuote_cons_neg _ (isQuote_not_ws hq2)
      · have hj3 : j = S.length + 1 := by omega
        subst hj3
        rw [← List.drop_drop, List.drop_left]
        rw [List.drop_succ_cons, List.drop_zero]
        exact fromQuote_tail_none hT

theorem drop_takeWhile_length {p : Char → Bool} : ∀ l : List Char,
    l.drop (l.takeWhile p).length = l.dropWhile p := by
  intro l
  induction l with
  | nil => rfl
  | cons a l ih =>
    by_cases ha : p a = true
    · rw [List.takeWhile_cons, if_pos ha, List.length_cons,
        List.drop_succ_cons, ih, List.dropWhile_cons, if_pos ha]
    · simp [List.takeWhile_cons, List.dropWhile_cons, ha]

/-- `fromQuote` fails at every position strictly inside a well-formed
bindings suffix followed by a space: the greedy `\s+` can only anchor
`from` right after a whitespace run, and `noWsFrom` rules that out. -/
theorem fromQuote_mid_none {x : List Char} (rest : List Char) (hx : x ≠ [])
    (hsuf : noWsSuffix x) (hfrom : noWsFrom x) :
    fromQuote (x ++ ' ' :: rest) = none := by
  obtain ⟨c, t, rfl⟩ := List.exists_cons_of_ne_nil hx
  by_cases hc0 : isJsWs c = false
  · rw [List.cons_append]
    exact fromQuote_cons_neg _ hc0
  · have hc : isJsWs c = true := by simpa using hc0
    have hz : (c :: t).dropWhile isJsWs ≠ [] := by
      have h0 := hsuf 0 (by simp)
      rwa [List.drop_zero] at h0
    obtain ⟨ht1, hd1⟩ := takeWhile_append_of_stop (' ' :: rest) hz
    have hlt : ((c :: t).takeWhile isJsWs).length < (c :: t).length :=
      takeWhile_length_lt hz
    unfold fromQuote
    rw [show wsLens ((c :: t) ++ ' ' :: rest) =
        downFrom ((c :: t).takeWhile isJsWs).length from by
      unfold wsLens; rw [ht1]]
    apply firstSome_all_none
    intro w hw
    rw [mem_downFrom] at hw
    obtain ⟨hw1, hw2⟩ := hw
    have hdrop : ((c :: t) ++ ' ' :: rest).drop w =
        (c :: t).drop w ++ ' ' :: rest :=
      List.drop_append_of_le_length (by omega)
    have hsplit : c :: t =
        (c :: t).takeWhile isJsWs ++ (c :: t).dropWhile isJsWs :=
      (List.takeWhile_append_dropWhile isJsWs (c :: t)).symm
    by_cases hww : w < ((c :: t).takeWhile isJsWs).length
    · obtain ⟨d, u, hdu⟩ := List.exists_cons_of_ne_nil
        (show ((c :: t).takeWhile isJsWs).drop w ≠ [] from fun h => by
          rw [List.drop_eq_nil_iff] at h; omega)
      have hdw : isJsWs d = true := List.mem_takeWhile_imp
        (List.drop_subset _ _ (show d ∈ ((c :: t).takeWhile isJsWs).drop w
          from by rw [hdu]; exact List.mem_cons_self d u))
      have hdu2 : (c :: t).drop w =
          d :: (u ++ (c :: t).dropWhile isJsWs) := by
        conv_lhs => rw [hsplit]
        rw [List.drop_append_of_le_length (Nat.le_of_lt hww), hdu,
          List.cons_append]
      have hdf : ¬ d = 'f' := fun h => by
        subst h
        exact absurd hdw (by decide)
      refine fromBody_none w ?_
      rw [hdrop, hdu2, List.cons_append]
      simp [dropLit, fromLit, hdf]
    · have hww' : w = ((c :: t).takeWhile isJsWs).length := by omega
      subst hww'
      have hdz : (c :: t).drop ((c :: t).takeWhile isJsWs).length =
          (c :: t).dropWhile isJsWs := drop_takeWhile_length (c :: t)
      have hfz : dropLit fromLit ((c :: t).dropWhile isJsWs) = none := by
        have h0 := hfrom 0 (by simp) (by
          rw [List.drop_zero]
          simp [List.takeWhile_cons, hc])
        rwa [List.drop_zero] at h0
      refine fromBody_none _ ?_
      rw [hdrop, hdz]
      exact dropLit_append_notin _ (by decide) hfz

theorem lazyCapture_bind_some {b S : List Char} {q1 q2 c1 : Char}
    {cs : List Char} (T : List Char) (hbind : BindOK b)
    (hq1 : isQuote q1 = true) (hq2 : isQuote q2 = true)
    (hS : S = c1 :: cs) (h1 : isSpecFirst c1 = true) (hspec : SpecOK S) :
    lazyCapture (b ++ segFromT S q1 q2 T) = some ⟨b, S, T⟩ := by
  obtain ⟨hb_ne, hb_dot, hb_head, hb_suf, hb_from⟩ := hbind
  have hb1 : 0 < b.length := List.length_pos.mpr hb_ne
  have hseg1 : (segFromT S q1 q2 T).takeWhile isDotCh =
      ' ' :: (('f' :: 'r' :: 'o' :: 'm' :: ' ' :: q1 ::
        (S ++ q2 :: T)).takeWhile isDotCh) := by
    show ((' ' :: ('f' :: 'r' :: 'o' :: 'm' :: ' ' :: q1 ::
      (S ++ q2 :: T))).takeWhile isDotCh) = _
    rw [List.takeWhile_cons, if_pos (show isDotCh ' ' = true from by decide)]
  have hcount : b.length + 1 ≤
      ((b ++ segFromT S q1 q2 T).takeWhile isDotCh).length := by
    rw [takeWhile_append_all _ hb_dot, List.length_append, hseg1,
      List.length_cons]
    omega
  unfold lazyCapture dotLens
  refine firstSome_upTo_some _ _ 1 (b.length - 1) _ (by omega) ?_ ?_
  · intro i hi
    refine lazyBody_none _ ?_
    rw [List.drop_append_of_le_length (by omega)]
    have hne : b.drop (1 + i) ≠ [] := fun h => by
      rw [List.drop_eq_nil_iff] at h; omega
    rw [show segFromT S q1 q2 T = ' ' :: ('f' :: 'r' :: 'o' :: 'm' :: ' ' ::
      q1 :: (S ++ q2 :: T)) from rfl]
    exact fromQuote_mid_none _ hne (noWsSuffix_drop _ hb_suf)
      (noWsFrom_drop _ hb_from)
  · rw [show 1 + (b.length - 1) = b.length from by omega]
    have hdrop : (b ++ segFromT S q1 q2 T).drop b.length =
        segFromT S q1 q2 T := List.drop_left _ _
    have htake : (b ++ segFromT S q1 q2 T).take b.length = b :=
      List.take_left _ _
    have hfq : fromQuote (segFromT S q1 q2 T) = some (S, T) := by
      subst hS
      exact fromQuote_seg_bare T hq1 hq2 h1
        (fun c hc => (hspec.2 c (List.mem_cons_of_mem c1 hc)).2)
    show (fromQuote ((b ++ segFromT S q1 q2 T).drop b.length)).map
      (fun pr => (⟨(b ++ segFromT S q1 q2 T).take b.length, pr.1, pr.2⟩ :
        ImportMatch)) = some ⟨b, S, T⟩
    rw [hdrop, htake, hfq]
    rfl

theorem lazyCapture_tailFrom_none {S : List Char} {q1 q2 c1 : Char}
    {cs : List Char} {T : List Char} (hq1 : isQuote q1 = true)
    (hq2 : isQuote q2 = true) (hS : S = c1 :: cs)
    (h1 : isSpecFirst c1 = false) (hSw : ∀ c ∈ S, isJsWs c = false)
    (hT : tailOK T) :
    lazyCapture ('f' :: 'r' :: 'o' :: 'm' :: ' ' :: q1 ::
      (S ++ q2 :: T)) = none := by
  have hTtake : T.takeWhile isDotCh = [] := by
    rcases hT with rfl | ⟨T2, rfl⟩
    · rfl
    · exact takeWhile_cons_neg _ (by decide)
  have hrun : (('f' :: 'r' :: 'o' :: 'm' :: ' ' :: q1 ::
      (S ++ q2 :: T)).takeWhile isDotCh).length = S.length + 7 := by
    show (((['f', 'r', 'o', 'm', ' ', q1] : List Char) ++
      (S ++ q2 :: T)).takeWhile isDotCh).length = S.length + 7
    rw [takeWhile_append_all _ (by
      intro c hc
      fin_cases hc
      · decide
      · decide
      · decide
      · decide
      · decide
      · exact isQuote_dot hq1)]
    rw [takeWhile_append_all _ (fun c hc => isDotCh_of_not_ws c (hSw c hc))]
    rw [List.takeWhile_cons, if_pos (isQuote_dot hq2), hTtake]
    simp only [List.length_append, List.length_cons, List.length_nil]
    omega
  unfold lazyCapture dotLens
  rw [hrun]
  apply firstSome_upTo_none
  intro i hi
  by_cases h5 : i < 4
  · interval_cases i
    · exact lazyBody_none 1 (fromQuote_cons_neg _ (by decide))
    · exact lazyBody_none 2 (fromQuote_cons_neg _ (by decide))
    · exact lazyBody_none 3 (fromQuote_cons_neg _ (by decide))
    · exact lazyBody_none 4 (fromQuote_space_quote _ hq1)
  · by_cases h6 : i = 4
    · subst h6
      exact lazyBody_none 5 (fromQuote_cons_neg _ (isQuote_not_ws hq1))
    · by_cases hS' : i < 5 + S.length
      · obtain ⟨j, hij, hj⟩ : ∃ j, i = 5 + j ∧ j < S.length :=
          ⟨i - 5, by omega, by omega⟩
        subst hij
        refine lazyBody_none _ ?_
        rw [show 1 + (5 + j) = 6 + j from by omega, ← List.drop_drop,
          show ('f' :: 'r' :: 'o' :: 'm' :: ' ' :: q1 ::
            (S ++ q2 :: T) : List Char).drop 6 = S ++ q2 :: T from rfl,
          List.drop_append_of_le_length (by omega)]
        obtain ⟨d, u, hdu⟩ := List.exists_cons_of_ne_nil
          (show S.drop j ≠ [] from fun h => by
            rw [List.drop_eq_nil_iff] at h; omega)
        rw [hdu, List.cons_append]
        exact fromQuote_cons_neg _ (hSw d (List.drop_subset _ _
          (show d ∈ S.drop j from by
            rw [hdu]; exact List.mem_cons_self d u)))
      · by_cases hq2p : i = 5 + S.length
        · subst hq2p
          refine lazyBody_none _ ?_
          rw [show 1 + (5 + S.length) = 6 + S.length from by omega,
            ← List.drop_drop,
            show ('f' :: 'r' :: 'o' :: 'm' :: ' ' :: q1 ::
              (S ++ q2 :: T) : List Char).drop 6 = S ++ q2 :: T from rfl,
            List.drop_left]
          exact fromQuote_cons_neg _ (isQuote_not_ws hq2)
        · have hi7 : i = 6 + S.length := by omega
          subst hi7
          refine lazyBody_none _ ?_
          rw [show 1 + (6 + S.length) = 6 + (S.length + 1) from by omega,
            ← List.drop_drop,
            show ('f' :: 'r' :: 'o' :: 'm' :: ' ' :: q1 ::
              (S ++ q2 :: T) : List Char).drop 6 = S ++ q2 :: T from rfl,
            ← List.drop_drop, List.drop_left]
          rw [List.drop_succ_cons, List.drop_zero]
          exact fromQuote_tail_none hT

theorem lazyCapture_mid_none {M S : List Char} {q1 q2 c1 : Char}
    {cs : List Char} {T : List Char} (hM : M ≠ [])
    (hM_dot : ∀ c ∈ M, isDotCh c = true) (hM_suf : noWsSuffix M)
    (hM_from : noWsFrom M) (hq1 : isQuote q1 = true)
    (hq2 : isQuote q2 = true) (hS : S = c1 :: cs)
    (h1 : isSpecFirst c1 = false) (hSw : ∀ c ∈ S, isJsWs c = false)
    (hT : tailOK T) :
    lazyCapture (M ++ segFromT S q1 q2 T) = none := by
  have hTtake : T.takeWhile isDotCh = [] := by
    rcases hT with rfl | ⟨T2, rfl⟩
    · rfl
    · exact takeWhile_cons_neg _ (by decide)
  have hseg : ((segFromT S q1 q2 T).takeWhile isDotCh).length =
      S.length + 8 := by
    show ((([' ', 'f', 'r', 'o', 'm', ' ', q1] : List Char) ++
      (S ++ q2 :: T)).takeWhile isDotCh).length = S.length + 8
    rw [takeWhile_append_all _ (by
      intro c hc
      fin_cases hc
      · decide
      · decide
      · decide
      · decide
      · decide
      · decide
      · exact isQuote_dot hq1)]
    rw [takeWhile_append_all _ (fun c hc => isDotCh_of_not_ws c (hSw c hc))]
    rw [List.takeWhile_cons, if_pos (isQuote_dot hq2), hTtake]
    simp only [List.length_append, List.length_cons, List.length_nil]
    omega
  have hrun : ((M ++ segFromT S q1 q2 T).takeWhile isDotCh).length =
      M.length + (S.length + 8) := by
    rw [takeWhile_append_all _ hM_dot, List.length_append, hseg]
  unfold lazyCapture dotLens
  rw [hrun]
  apply firstSome_upTo_none
  intro i hi
  by_cases ha1 : 1 + i < M.length
  · refine lazyBody_none _ ?_
    rw [List.drop_append_of_le_length (by omega)]
    have hne : M.drop (1 + i) ≠ [] := fun h => by
      rw [List.drop_eq_nil_iff] at h; omega
    rw [show segFromT S q1 q2 T = ' ' :: ('f' :: 'r' :: 'o' :: 'm' :: ' ' ::
      q1 :: (S ++ q2 :: T)) from rfl]
    exact fromQuote_mid_none _ hne (noWsSuffix_drop _ hM_suf)
      (noWsFrom_drop _ hM_from)
  · by_cases ha2 : 1 + i = M.length
    · refine lazyBody_none _ ?_
      rw [ha2, List.drop_left]
      subst hS
      exact fromQuote_seg_relative T hq1 h1
    · obtain ⟨k, hik, hk1, hk2⟩ : ∃ k, 1 + i = M.length + k ∧ 1 ≤ k ∧
          k ≤ S.length + 8 := ⟨1 + i - M.length, by omega, by omega, by omega⟩
      refine lazyBody_none _ ?_
      rw [hik, ← List.drop_drop, List.drop_left]
      exact fromQuote_seg_drop hq1 hq2 hSw hT k hk1 hk2

theorem postImport_nil : postImport [] = none := rfl

theorem postImport_cons_neg {c : Char} (l : List Char)
    (h : isJsWs c = false) : postImport (c :: l) = none := by
  unfold postImport
  rw [wsLens_cons_neg l h]
  rfl

theorem postImport_bind_some {b S : List Char} {q1 q2 c1 : Char}
    {cs : List Char} (T : List Char) (hbind : BindOK b)
    (hq1 : isQuote q1 = true) (hq2 : isQuote q2 = true)
    (hS : S = c1 :: cs) (h1 : isSpecFirst c1 = true) (hspec : SpecOK S) :
    postImport (' ' :: (b ++ segFromT S q1 q2 T)) = some ⟨b, S, T⟩ := by
  obtain ⟨b0, bs, hb0⟩ := List.exists_cons_of_ne_nil hbind.1
  have hb0w : isJsWs b0 = false := by
    have hh := hbind.2.2.1
    rw [hb0] at hh
    exact hh
  unfold postImport
  rw [show wsLens (' ' :: (b ++ segFromT S q1 q2 T)) = [1] from by
    rw [hb0, List.cons_append]
    exact wsLens_single _ (by decide) hb0w]
  apply firstSome_cons_some
  simp only [List.drop_succ_cons, List.drop_zero]
  exact lazyCapture_bind_some T hbind hq1 hq2 hS h1 hspec

theorem postImport_gen_none {M S : List Char} {q1 q2 c1 : Char}
    {cs : List Char} {T : List Char}
    (hM_dot : ∀ c ∈ M, isDotCh c = true) (hM_suf : noWsSuffix M)
    (hM_from : noWsFrom M) (hq1 : isQuote q1 = true)
    (hq2 : isQuote q2 = true) (hS : S = c1 :: cs)
    (h1 : isSpecFirst c1 = false) (hSw : ∀ c ∈ S, isJsWs c = false)
    (hT : tailOK T) :
    postImport (M ++ segFromT S q1 q2 T) = none := by
  by_cases hMnil : M = []
  · subst hMnil
    rw [List.nil_append]
    unfold postImport
    rw [show wsLens (segFromT S q1 q2 T) = [1] from by
      unfold segFromT
      exact wsLens_single _ (by decide) (by decide)]
    refine (firstSome_cons_none ?_).trans rfl
    show lazyCapture ((segFromT S q1 q2 T).drop 1) = none
    rw [show (segFromT S q1 q2 T).drop 1 = 'f' :: 'r' :: 'o' :: 'm' :: ' ' ::
      q1 :: (S ++ q2 :: T) from rfl]
    exact lazyCapture_tailFrom_none hq1 hq2 hS h1 hSw hT
  · obtain ⟨c, t, rfl⟩ := List.exists_cons_of_ne_nil hMnil
    by_cases hc0 : isJsWs c = false
    · rw [List.cons_append]
      exact postImport_cons_neg _ hc0
    · have hc : isJsWs c = true := by simpa using hc0
      have hz : (c :: t).dropWhile isJsWs ≠ [] := by
        have h0 := hM_suf 0 (by simp)
        rwa [List.drop_zero] at h0
      obtain ⟨ht1, hd1⟩ := takeWhile_append_of_stop (segFromT S q1 q2 T) hz
      have hlt : ((c :: t).takeWhile isJsWs).length < (c :: t).length :=
        takeWhile_length_lt hz
      unfold postImport
      rw [show wsLens ((c :: t) ++ segFromT S q1 q2 T) =
          downFrom ((c :: t).takeWhile isJsWs).length from by
        unfold wsLens
        rw [ht1]]
      apply firstSome_all_none
      intro w hw
      rw [mem_downFrom] at hw
      obtain ⟨hw1, hw2⟩ := hw
      show lazyCapture (((c :: t) ++ segFromT S q1 q2 T).drop w) = none
      rw [List.drop_append_of_le_length (by omega)]
      have hne : (c :: t).drop w ≠ [] := fun h => by
        rw [List.drop_eq_nil_iff] at h; omega
      exact lazyCapture_mid_none hne
        (fun d hd => hM_dot d (List.drop_subset _ _ hd))
        (noWsSuffix_drop _ hM_suf) (noWsFrom_drop _ hM_from)
        hq1 hq2 hS h1 hSw hT

theorem matchImportAt_stmt_some {st : Stmt} (T : List Char)
    (hok : StmtOK st) {c1 : Char} {cs : List Char}
    (hS : st.spec = c1 :: cs) (h1 : isSpecFirst c1 = true) :
    matchImportAt (stmtText st T) = some ⟨st.bind, st.spec, T⟩ := by
  obtain ⟨hbind, hspec, hq1, hq2⟩ := hok
  unfold matchImportAt stmtText
  rw [dropLit_self_append, Option.some_bind]
  exact postImport_bind_some T hbind hq1 hq2 hS h1 hspec

theorem matchImportAt_stmt_none {st : Stmt} (T : List Char)
    (hok : StmtOK st) {c1 : Char} {cs : List Char}
    (hS : st.spec = c1 :: cs) (h1 : isSpecFirst c1 = false)
    (hT : tailOK T) :
    matchImportAt (stmtText st T) = none := by
  obtain ⟨hbind, hspec, hq1, hq2⟩ := hok
  have hSw : ∀ c ∈ st.spec, isJsWs c = false := fun c hc => (hspec.2 c hc).1
  obtain ⟨b0, bs, hb0⟩ := List.exists_cons_of_ne_nil hbind.1
  have hb0w : isJsWs b0 = false := by
    have hh := hbind.2.2.1
    rw [hb0] at hh
    exact hh
  unfold matchImportAt stmtText
  rw [dropLit_self_append, Option.some_bind]
  unfold postImport
  rw [show wsLens (' ' :: (st.bind ++ segFromT st.spec st.q1 st.q2 T)) = [1]
    from by
      rw [hb0, List.cons_append]
      exact wsLens_single _ (by decide) hb0w]
  refine (firstSome_cons_none ?_).trans rfl
  show lazyCapture
    ((' ' :: (st.bind ++ segFromT st.spec st.q1 st.q2 T)).drop 1) = none
  rw [List.drop_succ_cons, List.drop_zero]
  exact lazyCapture_mid_none hbind.1 hbind.2.1 hbind.2.2.2.1 hbind.2.2.2.2
    hq1 hq2 hS h1 hSw hT

/-! ### The scan -/

theorem scanImports_nil (fuel : Nat) : scanImports fuel [] = [] := by
  cases fuel <;> rfl

theorem scanImports_cons_match {c : Char} {cs : List Char} {m : ImportMatch}
    (fuel : Nat) (h : matchImportAt (c :: cs) = some m) :
    scanImports (fuel + 1) (c :: cs) =
      importReplacement (c :: cs) m ++ scanImports fuel m.rest := by
  simp [scanImports, h]

theorem scanImports_cons_none {c : Char} {cs : List Char}
    (fuel : Nat) (h : matchImportAt (c :: cs) = none) :
    scanImports (fuel + 1) (c :: cs) = c :: scanImports fuel cs := by
  simp [scanImports, h]

theorem matchImportAt_none_of_no_lit {s : List Char}
    (h : dropLit importLit s = none) : matchImportAt s = none := by
  simp [matchImportAt, h]

theorem scanImports_match {l : List Char} {m : ImportMatch} (fuel : Nat)
    (hl : l ≠ []) (h : matchImportAt l = some m) :
    scanImports (fuel + 1) l =
      importReplacement l m ++ scanImports fuel m.rest := by
  obtain ⟨c, cs, rfl⟩ := List.exists_cons_of_ne_nil hl
  exact scanImports_cons_match fuel h

/-- In a relative-specifier statement the pattern matches at no position
past the start either: the `import` literal is either absent, or an
occurrence inside the bindings or the specifier, after which the rest of
the pattern cannot complete. -/
theorem stmt_late_none {st : Stmt} (T : List Char) (hok : StmtOK st)
    (hT : tailOK T) {c1 : Char} {cs : List Char} (hS : st.spec = c1 :: cs)
    (h1 : isSpecFirst c1 = false) :
    ∀ n, 1 ≤ n → n < (stmtOf st).length →
      matchImportAt ((stmtText st T).drop n) = none := by
  obtain ⟨hbind, hspec, hq1, hq2⟩ := hok
  have hSw : ∀ c ∈ st.spec, isJsWs c = false := fun c hc => (hspec.2 c hc).1
  intro n hn1 hn2
  rw [stmtOf_length] at hn2
  have hshape : stmtText st T =
      ['i', 'm', 'p', 'o', 'r', 't', ' '] ++
        (st.bind ++ segFromT st.spec st.q1 st.q2 T) := rfl
  have hdropB : ∀ m : Nat, (stmtText st T).drop (7 + m) =
      (st.bind ++ segFromT st.spec st.q1 st.q2 T).drop m := by
    intro m
    rw [hshape, ← List.drop_drop,
      show ((['i', 'm', 'p', 'o', 'r', 't', ' '] : List Char) ++
        (st.bind ++ segFromT st.spec st.q1 st.q2 T)).drop 7 =
        st.bind ++ segFromT st.spec st.q1 st.q2 T from
        List.drop_left ['i', 'm', 'p', 'o', 'r', 't', ' ']
          (st.bind ++ segFromT st.spec st.q1 st.q2 T)]
  have hdropSeg : ∀ m : Nat, (stmtText st T).drop (7 + st.bind.length + m) =
      (segFromT st.spec st.q1 st.q2 T).drop m := by
    intro m
    rw [show 7 + st.bind.length + m = 7 + (st.bind.length + m) from by omega,
      hdropB, ← List.drop_drop, List.drop_left]
  have hdropS : ∀ j : Nat, (stmtText st T).drop (14 + st.bind.length + j) =
      (st.spec ++ st.q2 :: T).drop j := by
    intro j
    rw [show 14 + st.bind.length + j = 7 + st.bind.length + (7 + j) from by
      omega, hdropSeg, ← List.drop_drop,
      show (segFromT st.spec st.q1 st.q2 T).drop 7 =
        st.spec ++ st.q2 :: T from rfl]
  by_cases hA : n < 7
  · apply matchImportAt_none_of_no_lit
    interval_cases n
    · rfl
    · rfl
    · rfl
    · rfl
    · rfl
    · rfl
  · by_cases hB : n < 7 + st.bind.length
    · obtain ⟨j, hnj, hj⟩ : ∃ j, n = 7 + j ∧ j < st.bind.length :=
        ⟨n - 7, by omega, by omega⟩
      subst hnj
      rw [hdropB j, List.drop_append_of_le_length (by omega)]
      by_cases hdl : dropLit importLit (st.bind.drop j) = none
      · apply matchImportAt_none_of_no_lit
        rw [show segFromT st.spec st.q1 st.q2 T = ' ' :: ('f' :: 'r' :: 'o' ::
          'm' :: ' ' :: st.q1 :: (st.spec ++ st.q2 :: T)) from rfl]
        exact dropLit_append_notin _ (by decide) hdl
      · obtain ⟨r, hr⟩ := Option.ne_none_iff_exists'.mp hdl
        have hr6 : r = st.bind.drop (j + 6) := by
          rw [dropLit_eq_drop importLit _ _ hr, List.drop_drop]
          congr 1
        unfold matchImportAt
        rw [show dropLit importLit (st.bind.drop j ++
            segFromT st.spec st.q1 st.q2 T) =
            some (r ++ segFromT st.spec st.q1 st.q2 T) from
          dropLit_append_some _ hr, Option.some_bind, hr6]
        exact postImport_gen_none
          (fun d hd => hbind.2.1 d (List.drop_subset _ _ hd))
          (noWsSuffix_drop _ hbind.2.2.2.1) (noWsFrom_drop _ hbind.2.2.2.2)
          hq1 hq2 hS h1 hSw hT
    · by_cases hC : n < 14 + st.bind.length
      · obtain ⟨k, hnk, hk⟩ : ∃ k, n = 7 + st.bind.length + k ∧ k < 7 :=
          ⟨n - (7 + st.bind.length), by omega, by omega⟩
        subst hnk
        rw [hdropSeg k]
        apply matchImportAt_none_of_no_lit
        interval_cases k
        · rfl
        · rfl
        · rfl
        · rfl
        · rfl
        · rfl
        · show dropLit importLit (st.q1 :: (st.spec ++ st.q2 :: T)) = none
          rcases isQuote_cases hq1 with h | h <;> rw [h] <;> rfl
      · by_cases hD : n < 14 + st.bind.length + st.spec.length
        · obtain ⟨j, hnj, hj⟩ : ∃ j, n = 14 + st.bind.length + j ∧
              j < st.spec.length :=
            ⟨n - (14 + st.bind.length), by omega, by omega⟩
          subst hnj
          rw [hdropS j, List.drop_append_of_le_length (by omega)]
          by_cases hdl : dropLit importLit (st.spec.drop j) = none
          · apply matchImportAt_none_of_no_lit
            exact dropLit_append_notin _ (importLit_ne_quote hq2) hdl
          · obtain ⟨r, hr⟩ := Option.ne_none_iff_exists'.mp hdl
            have hr6 : r = st.spec.drop (j + 6) := by
              rw [dropLit_eq_drop importLit _ _ hr, List.drop_drop]
              congr 1
            unfold matchImportAt
            rw [show dropLit importLit (st.spec.drop j ++ st.q2 :: T) =
                some (r ++ st.q2 :: T) from dropLit_append_some _ hr,
              Option.some_bind, hr6]
            rcases hsd : st.spec.drop (j + 6) with _ | ⟨d, u⟩
            · rw [List.nil_append]
              exact postImport_cons_neg _ (isQuote_not_ws hq2)
            · rw [List.cons_append]
              exact postImport_cons_neg _ (hSw d (List.drop_subset _ _
                (show d ∈ st.spec.drop (j + 6) from by
                  rw [hsd]; exact List.mem_cons_self d u)))
        · have hn3 : n = 14 + st.bind.length + st.spec.length := by omega
          subst hn3
          rw [hdropS st.spec.length, List.drop_left]
          apply matchImportAt_none_of_no_lit
          rcases isQuote_cases hq2 with h | h <;> rw [h] <;> rfl

/-! ### Fuel accounting for the scan -/

theorem quoteSpec_rest_lt {s : List Char} {pr : List Char × List Char}
    (h : quoteSpec s = some pr) : pr.2.length < s.length := by
  cases s with
  | nil => exact absurd h (by simp [quoteSpec])
  | cons q s7 =>
    simp only [quoteSpec] at h
    split at h
    · split at h
      · split at h
        · split at h
          · split at h
            · rename_i hq xa c1 s8 h1 xb q2 s9 heq hq2
              obtain rfl := (Option.some.inj h).symm
              have hlen : (q2 :: s9).length ≤ s8.length := by
                rw [← heq]
                exact (List.dropWhile_suffix _).length_le
              show s9.length < (q :: c1 :: s8).length
              simp only [List.length_cons] at hlen ⊢
              omega
            · exact absurd h (by simp)
          · exact absurd h (by simp)
        · exact absurd h (by simp)
      · exact absurd h (by simp)
    · exact absurd h (by simp)

theorem fromQuote_rest_lt {s3 : List Char} {pr : List Char × List Char}
    (h : fromQuote s3 = some pr) : pr.2.length < s3.length := by
  unfold fromQuote at h
  obtain ⟨w2, hw2, hbody⟩ := firstSome_some_exists h
  have hbody' : (dropLit fromLit (s3.drop w2)).bind
      (fun s5 => firstSome (fun w3 => quoteSpec (s5.drop w3)) (wsLens s5)) =
      some pr := hbody
  unfold wsLens at hw2
  rw [mem_downFrom] at hw2
  have hw2run : (s3.takeWhile isJsWs).length ≤ s3.length :=
    (List.takeWhile_prefix _).length_le
  cases hdl : dropLit fromLit (s3.drop w2) with
  | none =>
    rw [hdl] at hbody'
    exact absurd hbody' (by simp)
  | some s5 =>
    rw [hdl, Option.some_bind] at hbody'
    obtain ⟨w3, hw3, hqs⟩ := firstSome_some_exists hbody'
    have hqs' : quoteSpec (s5.drop w3) = some pr := hqs
    have hq := quoteSpec_rest_lt hqs'
    have h4 := dropLit_length hdl
    have h4' : (s3.drop w2).length = 4 + s5.length := by
      simpa [fromLit] using h4
    unfold wsLens at hw3
    rw [mem_downFrom] at hw3
    have hw3run : (s5.takeWhile isJsWs).length ≤ s5.length :=
      (List.takeWhile_prefix _).length_le
    rw [List.length_drop] at hq h4'
    omega

theorem lazyCapture_rest_lt {s2 : List Char} {m : ImportMatch}
    (h : lazyCapture s2 = some m) : m.rest.length < s2.length := by
  unfold lazyCapture at h
  obtain ⟨a, ha, hbody⟩ := firstSome_some_exists h
  have hbody' : (fromQuote (s2.drop a)).map
      (fun pr => (⟨s2.take a, pr.1, pr.2⟩ : ImportMatch)) = some m := hbody
  unfold dotLens at ha
  have ha' := mem_upTo ha
  cases hfq : fromQuote (s2.drop a) with
  | none =>
    rw [hfq] at hbody'
    exact absurd hbody' (by simp)
  | some pr =>
    rw [hfq] at hbody'
    have hlt := fromQuote_rest_lt hfq
    have hm : m.rest = pr.2 := by
      rw [Option.map_some'] at hbody'
      rw [← Option.some.inj hbody']
    rw [hm]
    rw [List.length_drop] at hlt
    have hrun : (s2.takeWhile isDotCh).length ≤ s2.length :=
      (List.takeWhile_prefix _).length_le
    omega

theorem matchImportAt_rest_lt {s : List Char} {m : ImportMatch}
    (h : matchImportAt s = some m) : m.rest.length < s.length := by
  unfold matchImportAt at h
  cases hdl : dropLit importLit s with
  | none =>
    rw [hdl] at h
    exact absurd h (by simp)
  | some s1 =>
    rw [hdl, Option.some_bind] at h
    unfold postImport at h
    obtain ⟨w1, hw1, hbody⟩ := firstSome_some_exists h
    have hbody' : lazyCapture (s1.drop w1) = some m := hbody
    have hlt := lazyCapture_rest_lt hbody'
    have h6 := dropLit_length hdl
    have h6' : s.length = 6 + s1.length := by
      simpa [importLit] using h6
    unfold wsLens at hw1
    rw [mem_downFrom] at hw1
    rw [List.length_drop] at hlt
    omega

/-- The scan is fuel-irrelevant once the fuel covers the input length:
every step consumes at least one character. -/
theorem scanImports_fuel : ∀ (fuel fuel2 : Nat) (l : List Char),
    l.length ≤ fuel → l.length ≤ fuel2 →
    scanImports fuel l = scanImports fuel2 l := by
  intro fuel
  induction fuel with
  | zero =>
    intro fuel2 l h1 _
    cases l with
    | nil => rw [scanImports_nil, scanImports_nil]
    | cons c cs =>
      exfalso
      simp only [List.length_cons] at h1
      omega
  | succ fuel ih =>
    intro fuel2 l h1 h2
    cases l with
    | nil => rw [scanImports_nil, scanImports_nil]
    | cons c cs =>
      cases fuel2 with
      | zero =>
        exfalso
        simp only [List.length_cons] at h2
        omega
      | succ fuel2 =>
        have hl1 : cs.length + 1 ≤ fuel + 1 := by simpa using h1
        have hl2 : cs.length + 1 ≤ fuel2 + 1 := by simpa using h2
        cases hm : matchImportAt (c :: cs) with
        | some m =>
          rw [scanImports_cons_match fuel hm, scanImports_cons_match fuel2 hm]
          have hr := matchImportAt_rest_lt hm
          simp only [List.length_cons] at hr
          rw [ih fuel2 m.rest (by omega) (by omega)]
        | none =>
          rw [scanImports_cons_none fuel hm, scanImports_cons_none fuel2 hm]
          rw [ih fuel2 cs (by omega) (by omega)]

/-- Over a stretch where no position matches, the scan copies the input
verbatim and continues on the suffix. -/
theorem scanImports_copy : ∀ (pre suf : List Char) (fuel : Nat),
    (∀ n, n < pre.length → matchImportAt ((pre ++ suf).drop n) = none) →
    pre.length ≤ fuel →
    scanImports fuel (pre ++ suf) =
      pre ++ scanImports (fuel - pre.length) suf := by
  intro pre
  induction pre with
  | nil =>
    intro suf fuel _ _
    simp
  | cons c pre ih =>
    intro suf fuel h hfuel
    rw [List.length_cons] at hfuel
    cases fuel with
    | zero => exact absurd hfuel (by omega)
    | succ fuel =>
      have h0 := h 0 (by simp)
      rw [List.drop_zero, List.cons_append] at h0
      rw [List.cons_append, scanImports_cons_none fuel h0]
      rw [ih suf fuel (fun n hn => by
        have hh := h (n + 1) (by simp only [List.length_cons]; omega)
        rwa [List.cons_append, List.drop_succ_cons] at hh) (by omega)]
      simp [Nat.succ_sub_succ]

theorem joinStmts_head (st : Stmt) (rest : List Stmt) :
    ∃ t2, joinStmts (st :: rest) = 'i' :: t2 := by
  cases rest with
  | nil => exact ⟨_, rfl⟩
  | cons st2 rest2 => exact ⟨_, rfl⟩

/-- One pass over a single well-formed statement with its trailing
context: the statement is replaced by its rewrite, the scan continues on
the context. -/
theorem scan_stmt {st : Stmt} (T : List Char) (hok : StmtOK st)
    (hT : tailOK T) (fuel : Nat)
    (hfuel : (stmtText st T).length ≤ fuel) :
    scanImports fuel (stmtText st T) =
      rewriteStmt st ++ scanImports T.length T := by
  have hlen : (stmtText st T).length = (stmtOf st).length + T.length := by
    rw [← stmtOf_append, List.length_append]
  have hlO := stmtOf_length st
  obtain ⟨hbind, hspec, hq1, hq2⟩ := hok
  obtain ⟨c1, cs, hS⟩ := List.exists_cons_of_ne_nil hspec.1
  by_cases h1 : isSpecFirst c1 = true
  · have hm : matchImportAt (stmtText st T) =
        some ⟨st.bind, st.spec, T⟩ :=
      matchImportAt_stmt_some T ⟨hbind, hspec, hq1, hq2⟩ hS h1
    cases fuel with
    | zero => exact absurd hfuel (by rw [hlen]; omega)
    | succ fuel =>
      have hne : stmtText st T ≠ [] := by
        intro hnil
        have hlnil := congrArg List.length hnil
        rw [hlen] at hlnil
        rw [List.length_nil] at hlnil
        omega
      rw [scanImports_match fuel hne hm]
      rw [show (⟨st.bind, st.spec, T⟩ : ImportMatch).rest = T from rfl]
      rw [scanImports_fuel fuel T.length T (by omega) (Nat.le_refl _)]
      congr 1
      unfold importReplacement
      rw [show (⟨st.bind, st.spec, T⟩ : ImportMatch).spec = st.spec from rfl,
        show (⟨st.bind, st.spec, T⟩ : ImportMatch).imports = st.bind from rfl,
        show (⟨st.bind, st.spec, T⟩ : ImportMatch).rest = T from rfl]
      by_cases hh : st.spec.take 4 = ['h', 't', 't', 'p']
      · rw [if_pos hh, rewriteStmt_http hS h1 hh]
        rw [← stmtOf_append, List.length_append]
        rw [show (stmtOf st).length + T.length - T.length =
          (stmtOf st).length from by omega]
        exact List.take_left _ _
      · rw [if_neg hh, rewriteStmt_bare hS h1 hh]
  · have h1' : isSpecFirst c1 = false := by simpa using h1
    have hnone : ∀ n, n < (stmtOf st).length →
        matchImportAt ((stmtOf st ++ T).drop n) = none := by
      intro n hn
      rw [stmtOf_append]
      rcases Nat.eq_zero_or_pos n with rfl | hn1
      · rw [List.drop_zero]
        exact matchImportAt_stmt_none T ⟨hbind, hspec, hq1, hq2⟩ hS h1' hT
      · exact stmt_late_none T ⟨hbind, hspec, hq1, hq2⟩ hT hS h1' n hn1 hn
    rw [← stmtOf_append, scanImports_copy (stmtOf st) T fuel hnone (by omega),
      rewriteStmt_rel hS h1']
    congr 1
    exact scanImports_fuel _ _ T (by omega) (Nat.le_refl _)

/-- The whole scan over newline-separated well-formed statements. -/
theorem scan_join : ∀ (stmts : List Stmt) (fuel : Nat),
    (∀ st ∈ stmts, StmtOK st) → (joinStmts stmts).length ≤ fuel →
    scanImports fuel (joinStmts stmts) = joinRewrites stmts := by
  intro stmts
  induction stmts with
  | nil =>
    intro fuel _ _
    exact scanImports_nil fuel
  | cons st rest ih =>
    intro fuel hok hfuel
    have hst : StmtOK st := hok st (List.mem_cons_self st rest)
    cases rest with
    | nil =>
      have h0 : stmtOf st = stmtText st [] := by
        rw [← stmtOf_append, List.append_nil]
      show scanImports fuel (stmtOf st) = rewriteStmt st
      rw [h0, scan_stmt [] hst (Or.inl rfl) fuel (by rw [← h0]; exact hfuel)]
      rw [scanImports_nil, List.append_nil]
    | cons st2 rest2 =>
      obtain ⟨J2, hJ2⟩ := joinStmts_head st2 rest2
      have hj0 : joinStmts (st :: st2 :: rest2) =
          stmtOf st ++ '\n' :: joinStmts (st2 :: rest2) := rfl
      have htok : tailOK ('\n' :: joinStmts (st2 :: rest2)) := by
        rw [hJ2]
        exact Or.inr ⟨J2, rfl⟩
      have hj1 : joinStmts (st :: st2 :: rest2) =
          stmtText st ('\n' :: joinStmts (st2 :: rest2)) := by
        rw [hj0, stmtOf_append]
      rw [hj1, scan_stmt _ hst htok fuel (by rw [← hj1]; exact hfuel)]
      have hscan : scanImports ('\n' :: joinStmts (st2 :: rest2)).length
          ('\n' :: joinStmts (st2 :: rest2)) =
          '\n' :: joinRewrites (st2 :: rest2) := by
        rw [List.length_cons]
        rw [scanImports_cons_none _ (matchImportAt_none_of_no_lit
          (show dropLit importLit ('\n' :: joinStmts (st2 :: rest2)) = none
            from rfl))]
        rw [ih (joinStmts (st2 :: rest2)).length
          (fun s hs => hok s (List.mem_cons_of_mem st hs)) (Nat.le_refl _)]
      rw [hscan]
      rfl

/-- One pass of `transformImports` over a single well-formed statement is
exactly `rewriteStmt`. -/
theorem transformImports_stmtOf (st : Stmt) (hok : StmtOK st) :
    transformImports ⟨stmtOf st⟩ = ⟨rewriteStmt st⟩ := by
  have h := scan_join [st] (stmtOf st).length
    (fun s hs => by rcases List.mem_singleton.mp hs with rfl; exact hok)
    (Nat.le_refl _)
  exact congrArg String.mk h

/-- **C6 (amended).** On every program that is a newline-separated
sequence of well-formed statements `import <bindings> from <q><spec><q>`
(either quote style; bindings nonempty, on one line, not starting or
ending with whitespace and containing no whitespace run immediately
followed by the literal `from` — so `x`, `* as _` and brace lists with
spaces all qualify; specifier nonempty with no quotes and no whitespace),
the rewriter rewrites exactly those statements whose specifier starts
with a character outside the class `'"./` and whose first four characters
are not `http` — the only exemption the code implements — replacing the
statement by `import <bindings> from 'https://esm.sh/<spec>'`; statements
whose specifier starts with `.` or `/` (relative or absolute) and
statements whose specifier starts with the four characters `http` (which
covers the http:// and https:// schemes) are left character-for-character
unchanged.  Specifiers with any other URL scheme (ftp://, file:, data:)
are treated like bare names and rewritten. -/
theorem transformImports_exactly_bare (stmts : List Stmt)
    (hok : ∀ st ∈ stmts, StmtOK st) :
    transformImports ⟨joinStmts stmts⟩ = ⟨joinRewrites stmts⟩ ∧
    ∀ st : Stmt, ∀ c1 : Char, ∀ cs : List Char, st.spec = c1 :: cs →
      (isSpecFirst c1 = true → st.spec.take 4 ≠ ['h', 't', 't', 'p'] →
        rewriteStmt st = "import ".data ++ st.bind ++
          " from \x27https://esm.sh/".data ++ st.spec ++ ['\x27']) ∧
      (isSpecFirst c1 = false → rewriteStmt st = stmtOf st) ∧
      (st.spec.take 4 = ['h', 't', 't', 'p'] →
        rewriteStmt st = stmtOf st) := by
  constructor
  · have h := scan_join stmts (joinStmts stmts).length hok (Nat.le_refl _)
    exact congrArg String.mk h
  · intro st c1 cs hS
    refine ⟨fun h1 hh => rewriteStmt_bare hS h1 hh,
      fun h1 => rewriteStmt_rel hS h1, fun hh => ?_⟩
    by_cases h1 : isSpecFirst c1 = true
    · exact rewriteStmt_http hS h1 hh
    · exact rewriteStmt_rel hS (by simpa using h1)

/-- Witness for C6 at a concrete three-statement program: whitespace
bindings with a bare specifier are rewritten, a double-quoted
`https://esm.sh/` specifier and a relative specifier are untouched. -/
theorem transformImports_exactly_bare_witness :
    (∀ st ∈ ([⟨"\x7b a, b \x7d".data, "lodash".data, '\x27', '\x27'⟩,
      ⟨['x'], "https://esm.sh/react".data, '\x22', '\x22'⟩,
      ⟨['y'], "./local".data, '\x27', '\x27'⟩] : List Stmt), StmtOK st) ∧
    transformImports
        "import \x7b a, b \x7d from \x27lodash\x27\nimport x from \x22https://esm.sh/react\x22\nimport y from \x27./local\x27" =
      "import \x7b a, b \x7d from \x27https://esm.sh/lodash\x27\nimport x from \x22https://esm.sh/react\x22\nimport y from \x27./local\x27" := by
  constructor
  · decide
  · have h := (transformImports_exactly_bare
      [⟨"\x7b a, b \x7d".data, "lodash".data, '\x27', '\x27'⟩,
       ⟨['x'], "https://esm.sh/react".data, '\x22', '\x22'⟩,
       ⟨['y'], "./local".data, '\x27', '\x27'⟩] (by decide)).1
    have hin : (⟨joinStmts [⟨"\x7b a, b \x7d".data, "lodash".data, '\x27',
        '\x27'⟩, ⟨['x'], "https://esm.sh/react".data, '\x22', '\x22'⟩,
        ⟨['y'], "./local".data, '\x27', '\x27'⟩]⟩ : String) =
        "import \x7b a, b \x7d from \x27lodash\x27\nimport x from \x22https://esm.sh/react\x22\nimport y from \x27./local\x27" := by
      decide
    have hout : (⟨joinRewrites [⟨"\x7b a, b \x7d".data, "lodash".data,
        '\x27', '\x27'⟩, ⟨['x'], "https://esm.sh/react".data, '\x22',
        '\x22'⟩, ⟨['y'], "./local".data, '\x27', '\x27'⟩]⟩ : String) =
        "import \x7b a, b \x7d from \x27https://esm.sh/lodash\x27\nimport x from \x22https://esm.sh/react\x22\nimport y from \x27./local\x27" := by
      decide
    rw [hin, hout] at h
    exact h

/-- Idempotence on the statement family (supporting evidence for C7): one
pass rewrites a bare statement onto `https://esm.sh/`, and a second pass
leaves the result fixed because the rewritten specifier starts with
`http`; `http`-prefixed and relative statements are fixed points
outright. -/
theorem transformImports_single_idem (st : Stmt) (hok : StmtOK st) :
    transformImports (transformImports ⟨stmtOf st⟩) =
      transformImports ⟨stmtOf st⟩ := by
  have hfirst := transformImports_stmtOf st hok
  obtain ⟨hbind, hspec, hq1, hq2⟩ := hok
  obtain ⟨c1, cs, hS⟩ := List.exists_cons_of_ne_nil hspec.1
  by_cases h1 : isSpecFirst c1 = true
  · by_cases hh : st.spec.take 4 = ['h', 't', 't', 'p']
    · have hfix : transformImports ⟨stmtOf st⟩ = ⟨stmtOf st⟩ := by
        rw [hfirst, rewriteStmt_http hS h1 hh]
      rw [hfix]
      exact hfix
    · have hok2 : StmtOK ⟨st.bind, "https://esm.sh/".data ++ st.spec,
          '\x27', '\x27'⟩ := by
        refine ⟨hbind, ⟨?_, ?_⟩, ?_, ?_⟩
        case refine_3 =>
          show isQuote '\x27' = true
          decide
        case refine_4 =>
          show isQuote '\x27' = true
          decide
        · intro hnil
          have hl := congrArg List.length hnil
          rw [List.length_append, List.length_nil] at hl
          rw [show ("https://esm.sh/".data).length = 15 from rfl] at hl
          omega
        · intro c hc
          rcases List.mem_append.mp hc with hc | hc
          · exact (show ∀ c ∈ "https://esm.sh/".data,
              isJsWs c = false ∧ isSpecTail c = true from by decide) c hc
          · exact hspec.2 c hc
      have hstep : rewriteStmt st = stmtOf ⟨st.bind,
          "https://esm.sh/".data ++ st.spec, '\x27', '\x27'⟩ := by
        rw [rewriteStmt_bare hS h1 hh]
        show "import ".data ++ st.bind ++ " from \x27https://esm.sh/".data ++
            st.spec ++ ['\x27'] =
          importLit ++ ' ' :: (st.bind ++ (' ' :: 'f' :: 'r' :: 'o' :: 'm' ::
            ' ' :: '\x27' :: (("https://esm.sh/".data ++ st.spec) ++
              ['\x27'])))
        rw [show "import ".data = ['i', 'm', 'p', 'o', 'r', 't', ' ']
          from rfl]
        rw [show " from \x27https://esm.sh/".data =
          ' ' :: 'f' :: 'r' :: 'o' :: 'm' :: ' ' :: '\x27' ::
            "https://esm.sh/".data from rfl]
        simp [importLit]
      have hsecond := transformImports_stmtOf _ hok2
      rw [hfirst, hstep, hsecond,
        rewriteStmt_http
          (show (⟨st.bind, "https://esm.sh/".data ++ st.spec, '\x27',
            '\x27'⟩ : Stmt).spec = 'h' ::
              ("ttps://esm.sh/".data ++ st.spec) from rfl)
          (by decide) rfl]
  · have h1' : isSpecFirst c1 = false := by simpa using h1
    have hfix : transformImports ⟨stmtOf st⟩ = ⟨stmtOf st⟩ := by
      rw [hfirst, rewriteStmt_rel hS h1']
    rw [hfix]
    exact hfix

/-- Counterexample for C6 as stated: a specifier with the URL scheme
`ftp://` is not left unchanged — the code only exempts specifiers starting
with `http`, so it rewrites this one. -/
theorem transformImports_scheme_counterexample :
    transformImports "import x from \x27ftp://e.com/m\x27" =
      "import x from \x27https://esm.sh/ftp://e.com/m\x27" ∧
    transformImports "import x from \x27ftp://e.com/m\x27" ≠
      "import x from \x27ftp://e.com/m\x27" := by
  constructor
  · decide
  · decide

/-! ## Markdown rendering

`markdownToHtml` is a chain of `String.replace` calls: the three character
escapes, the three heading patterns (`/^#+ (.*$)/gim`), bold-italic, bold,
italic, fenced code, inline code, links, paragraph breaks and line breaks,
wrapped in `<p>...</p>`. -/

/-- `.replace(/&/g, '&amp;')`. -/
def escAmp : List Char → List Char
  | [] => []
  | c :: cs =>
    if c = '&' then '&' :: 'a' :: 'm' :: 'p' :: ';' :: escAmp cs
    else c :: escAmp cs

/-- `.replace(/</g, '&lt;')`. -/
def escLt : List Char → List Char
  | [] => []
  | c :: cs =>
    if c = '<' then '&' :: 'l' :: 't' :: ';' :: escLt cs
    else c :: escLt cs

/-- `.replace(/>/g, '&gt;')`. -/
def escGt : List Char → List Char
  | [] => []
  | c :: cs =>
    if c = '>' then '&' :: 'g' :: 't' :: ';' :: escGt cs
    else c :: escGt cs

/-- The three escapes, in source order (`&` first so later entities are not
double-escaped). -/
def escapeHtml (l : List Char) : List Char :=
  escGt (escLt (escAmp l))

/-- An ECMAScript line terminator (what `^`/`$` with the `m` flag split on). -/
def isLineTerm (c : Char) : Bool :=
  c == '\n' || c == '\r' || c == '\u2028' || c == '\u2029'

/-- One heading pattern `/^<mark> (.*$)/gim` applied to a single line. -/
def headingLine (mark openTag closeTag : List Char) (line : List Char) :
    List Char :=
  match dropLit mark line with
  | some rest => openTag ++ rest ++ closeTag
  | none => line

def mapLinesGo (f : List Char → List Char) (acc : List Char) :
    List Char → List Char
  | [] => f acc.reverse
  | c :: cs =>
    if isLineTerm c then f acc.reverse ++ c :: mapLinesGo f [] cs
    else mapLinesGo f (c :: acc) cs

/-- Apply a per-line rewrite to every line (a multiline `^...$` replace). -/
def mapLines (f : List Char → List Char) (l : List Char) : List Char :=
  mapLinesGo f [] l

/-- The lazy `(.*?)` before a closing delimiter: shortest content first,
content restricted to `.` (no line terminators). -/
def findLazyClose (closeD : List Char) : List Char → Option (List Char × List Char)
  | [] => none
  | c :: cs =>
    match dropLit closeD (c :: cs) with
    | some rest => some ([], rest)
    | none =>
      if isDotCh c then
        match findLazyClose closeD cs with
        | some (content, rest) => some (c :: content, rest)
        | none => none
      else none

/-- Global replace of `<open>(.*?)<close>` by `<wrapL>$1<wrapR>`. -/
def replaceDelim (openD closeD wrapL wrapR : List Char) :
    Nat → List Char → List Char
  | 0, s => s
  | _ + 1, [] => []
  | fuel + 1, c :: cs =>
    match dropLit openD (c :: cs) with
    | some afterOpen =>
      match findLazyClose closeD afterOpen with
      | some (content, rest) =>
        wrapL ++ content ++ wrapR ++ replaceDelim openD closeD wrapL wrapR fuel rest
      | none => c :: replaceDelim openD closeD wrapL wrapR fuel cs
    | none => c :: replaceDelim openD closeD wrapL wrapR fuel cs

/-- JavaScript `\w`: ASCII letters, digits and underscore. -/
def isWordCh (c : Char) : Bool :=
  decide ('a' ≤ c ∧ c ≤ 'z') || decide ('A' ≤ c ∧ c ≤ 'Z') ||
  decide ('0' ≤ c ∧ c ≤ '9') || c == '_'

/-- The lazy `([\s\S]*?)` before a closing delimiter: any character,
including line terminators. -/
def findLazyAny (closeD : List Char) : List Char → Option (List Char × List Char)
  | [] => none
  | c :: cs =>
    match dropLit closeD (c :: cs) with
    | some rest => some ([], rest)
    | none =>
      match findLazyAny closeD cs with
      | some (content, rest) => some (c :: content, rest)
      | none => none

def fenceLit : List Char := ['\x60', '\x60', '\x60']

/-- Global replace of ``` /```(\w+)?\n([\s\S]*?)```/ ``` by
`<pre><code>$2</code></pre>` (the language capture is dropped). -/
def replaceFenced : Nat → List Char → List Char
  | 0, s => s
  | _ + 1, [] => []
  | fuel + 1, c :: cs =>
    match dropLit fenceLit (c :: cs) with
    | some afterOpen =>
      match afterOpen.dropWhile isWordCh with
      | '\n' :: body =>
        match findLazyAny fenceLit body with
        | some (content, rest) =>
          "<pre><code>".data ++ content ++ "</code></pre>".data ++
            replaceFenced fuel rest
        | none => c :: replaceFenced fuel cs
      | _ => c :: replaceFenced fuel cs
    | none => c :: replaceFenced fuel cs

/-- Global replace of `` /`([^`]+)`/ `` by `<code>$1</code>`. -/
def replaceInlineCode : Nat → List Char → List Char
  | 0, s => s
  | _ + 1, [] => []
  | fuel + 1, c :: cs =>
    if c = '\x60' then
      match cs.dropWhile (fun d => !(d == '\x60')) with
      | '\x60' :: rest =>
        match cs.takeWhile (fun d => !(d == '\x60')) with
        | [] => c :: replaceInlineCode fuel cs
        | content =>
          "<code>".data ++ content ++ "</code>".data ++
            replaceInlineCode fuel rest
      | _ => c :: replaceInlineCode fuel cs
    else c :: replaceInlineCode fuel cs

/-- Global replace of `/\[([^\]]+)\]\(([^)]+)\)/` by `<a href="$2">$1</a>`. -/
def replaceLinks : Nat → List Char → List Char
  | 0, s => s
  | _ + 1, [] => []
  | fuel + 1, c :: cs =>
    if c = '[' then
      match cs.dropWhile (fun d => !(d == ']')), cs.takeWhile (fun d => !(d == ']')) with
      | ']' :: '(' :: cs2, txt =>
        match cs2.dropWhile (fun d => !(d == ')')), cs2.takeWhile (fun d => !(d == ')')) with
        | ')' :: rest, url =>
          if txt = [] ∨ url = [] then c :: replaceLinks fuel cs
          else
            "<a href=\x22".data ++ url ++ "\x22>".data ++ txt ++ "</a>".data ++
              replaceLinks fuel rest
        | _, _ => c :: replaceLinks fuel cs
      | _, _ => c :: replaceLinks fuel cs
    else c :: replaceLinks fuel cs

/-- `.replace(/\n\n/g, '</p><p>')`. -/
def replaceParas : List Char → List Char
  | '\n' :: '\n' :: cs => "</p><p>".data ++ replaceParas cs
  | c :: cs => c :: replaceParas cs
  | [] => []

/-- `.replace(/\n/g, '<br>')`. -/
def replaceBreaks : List Char → List Char
  | [] => []
  | '\n' :: cs => "<br>".data ++ replaceBreaks cs
  | c :: cs => c :: replaceBreaks cs

/-- The structural substitutions of `markdownToHtml`, in source order,
applied after the character escapes. -/
def structuralSubs (l : List Char) : List Char :=
  let h1 := mapLines (headingLine ['#', '#', '#', ' '] "<h3>".data "</h3>".data) l
  let h2 := mapLines (headingLine ['#', '#', ' '] "<h2>".data "</h2>".data) h1
  let h3 := mapLines (headingLine ['#', ' '] "<h1>".data "</h1>".data) h2
  let h4 := replaceDelim ['*', '*', '*'] ['*', '*', '*']
    "<strong><em>".data "</em></strong>".data h3.length h3
  let h5 := replaceDelim ['*', '*'] ['*', '*']
    "<strong>".data "</strong>".data h4.length h4
  let h6 := replaceDelim ['*'] ['*'] "<em>".data "</em>".data h5.length h5
  let h7 := replaceFenced h6.length h6
  let h8 := replaceInlineCode h7.length h7
  let h9 := replaceLinks h8.length h8
  replaceBreaks (replaceParas h9)

/-- `markdownToHtml(markdown)`: escape, substitute, wrap in `<p>...</p>`. -/
def markdownToHtml (markdown : String) : String :=
  ⟨"<p>".data ++ structuralSubs (escapeHtml markdown.data) ++ "</p>".data⟩

/-- `createHtmlPreview(html)`: the styled document shell around the
rendered markdown. -/
def createHtmlPreview (html : String) : String :=
  "\n    <!DOCTYPE html>\n    <html>\n    <head>\n      <style>\n        * \x7b margin: 0; padding: 0; box-sizing: border-box; \x7d\n        body \x7b\n          font-family: -apple-system, BlinkMacSystemFont, \x27Segoe UI\x27, Roboto, sans-serif;\n          padding: 16px;\n          line-height: 1.6;\n          color: #1a1a1a;\n        \x7d\n        h1, h2, h3 \x7b margin: 1em 0 0.5em; \x7d\n        h1 \x7b font-size: 1.5em; \x7d\n        h2 \x7b font-size: 1.25em; \x7d\n        h3 \x7b font-size: 1.1em; \x7d\n        p \x7b margin: 0.5em 0; \x7d\n        code \x7b background: #f0f0f0; padding: 0.2em 0.4em; border-radius: 3px; font-size: 0.9em; \x7d\n        pre \x7b background: #f0f0f0; padding: 1em; border-radius: 4px; overflow-x: auto; margin: 1em 0; \x7d\n        pre code \x7b background: none; padding: 0; \x7d\n        a \x7b color: #0066cc; \x7d\n      </style>\n    </head>\n    <body>" ++
  html ++
  "</body>\n    </html>\n  "

/-! ## esbuild initialization cache and the `executeCode` orchestrator -/

/-- The module-level initialization cache of `executor.ts`:
`esbuildInitialized` and `esbuildInitError`. -/
structure EsState where
  initialized : Bool
  initError : Option String
deriving DecidableEq, Repr

/-- A thrown JavaScript value: an `Error` instance carrying its `message`,
or any other value with its `String(...)` conversion. -/
inductive JsThrown where
  | errObj (message : String)
  | nonError (stringRep : String)
deriving DecidableEq, Repr

def isPrefixB : List Char → List Char → Bool
  | [], _ => true
  | _ :: _, [] => false
  | p :: ps, c :: cs => p == c && isPrefixB ps cs

/-- Substring test (`String.prototype.includes`). -/
def containsSub : List Char → List Char → Bool
  | [], pat => pat.isEmpty
  | c :: cs, pat => isPrefixB pat (c :: cs) || containsSub cs pat

def containsStr (s pat : String) : Bool :=
  containsSub s.data pat.data

/-- The message esbuild throws when initialized twice. -/
def initMoreThanOnceMsg : String := "Cannot call \x22initialize\x22 more than once"

/-- `initEsbuild()`: return if initialized; re-throw a cached failure;
otherwise run the initialization attempt (whose outcome is the external
parameter), treating the already-initialized error as success and caching
any other failure before throwing it. -/
def initEsbuild (st : EsState) (attempt : Except JsThrown Unit) :
    EsState × Except String Unit :=
  if st.initialized then (st, Except.ok ())
  else
    match st.initError with
    | some e => (st, Except.error e)
    | none =>
      match attempt with
      | Except.ok _ => ({ st with initialized := true }, Except.ok ())
      | Except.error (JsThrown.errObj msg) =>
        if containsSub msg.data initMoreThanOnceMsg.data then
          ({ st with initialized := true }, Except.ok ())
        else ({ st with initError := some msg }, Except.error msg)
      | Except.error (JsThrown.nonError s) =>
        ({ st with initError := some s }, Except.error s)

/-- `String.prototype.trim()`: strip ECMAScript whitespace and line
terminators from both ends. -/
def jsTrim (l : List Char) : List Char :=
  ((l.dropWhile isJsWs).reverse.dropWhile isJsWs).reverse

/-- Which execution strategy `executeCode` hands the transpiled code to:
none (early return), `executePlainCode`, or `executeReactCode`. -/
inductive ExecAction where
  | skip
  | plain (code : String)
  | react (code : String)
deriving DecidableEq, Repr

/-- The external world of one `executeCode` call: the outcome esbuild
initialization would have (when attempted), and the outcome of
`esbuild.transform` as a function of the loader and the input code. -/
structure ExecEnv where
  esAttempt : Except JsThrown Unit
  transform : String → String → Except JsThrown String

/-- What one `executeCode` call does: the items it emits itself, the
execution it starts, and the updated initialization cache.  The function is
total — the orchestrator's promise resolves on every path. -/
structure ExecResult where
  outputs : List Item
  action : ExecAction
  esState : EsState
deriving Repr

/-- The esbuild loader chosen for a block type:
`isJsx ? 'tsx' : type === 'typescript' ? 'ts' : 'js'`. -/
def loaderOf (typ : String) : String :=
  if typ = "tsx" ∨ typ = "jsx" then "tsx"
  else if typ = "typescript" then "ts" else "js"

def hexDigitOf (n : Nat) : Char := Nat.digitChar n

/-- One character of `JSON.stringify` string escaping. -/
def jsonEscChar (c : Char) : List Char :=
  if c = '\x22' then ['\\', '\x22']
  else if c = '\\' then ['\\', '\\']
  else if c = '\x08' then ['\\', 'b']
  else if c = '\x09' then ['\\', 't']
  else if c = '\x0a' then ['\\', 'n']
  else if c = '\x0c' then ['\\', 'f']
  else if c = '\x0d' then ['\\', 'r']
  else if c.toNat < 0x20 then
    ['\\', 'u', '0', '0', hexDigitOf (c.toNat / 16), hexDigitOf (c.toNat % 16)]
  else [c]

/-- `JSON.stringify` of a string. -/
def jsonStringifyStr (s : String) : String :=
  ⟨'\x22' :: s.data.flatMap jsonEscChar ++ ['\x22']⟩

/-- The HTML document `executeReactCode` emits: the React preview shell
with the transpiled user code spliced in via `JSON.stringify(code)`. -/
def reactHtml (code : String) : String :=
  "\n    <!DOCTYPE html>\n    <html>\n    <head>\n      <style>\n        * \x7b margin: 0; padding: 0; box-sizing: border-box; \x7d\n        body \x7b font-family: -apple-system, BlinkMacSystemFont, \x27Segoe UI\x27, Roboto, sans-serif; \x7d\n        #root \x7b padding: 16px; \x7d\n        .error \x7b color: red; padding: 16px; font-family: monospace; white-space: pre-wrap; \x7d\n        .loading \x7b color: #666; padding: 16px; \x7d\n      </style>\n    </head>\n    <body>\n      <div id=\x22root\x22><div class=\x22loading\x22>Loading React...</div></div>\n      <script type=\x22module\x22>\n        try \x7b\n          // Import React FIRST so it\x27s available for the user\x27s transpiled JSX\n          const React = await import(\x27https://esm.sh/react@18\x27);\n          const ReactDOM = await import(\x27https://esm.sh/react-dom@18/client\x27);\n\n          // Make React globally available for createElement calls\n          window.React = React;\n\n          // Execute user code - eval returns the last expression value\n          const userCode = " ++
  jsonStringifyStr code ++
  ";\n\n          // eval() returns the value of the last expression\n          const result = eval(userCode);\n\n          // Try to render the result if it\x27s a React element or component\n          const root = ReactDOM.createRoot(document.getElementById(\x27root\x27));\n\n          if (result && (result.$$typeof || typeof result === \x27function\x27)) \x7b\n            // It\x27s a React element or component\n            if (typeof result === \x27function\x27) \x7b\n              root.render(React.createElement(result));\n            \x7d else \x7b\n              root.render(result);\n            \x7d\n          \x7d else if (result !== undefined) \x7b\n            // Just display the result as text\n            root.render(React.createElement(\x27pre\x27, null, JSON.stringify(result, null, 2)));\n          \x7d else \x7b\n            root.render(React.createElement(\x27div\x27, \x7b className: \x27error\x27 \x7d, \x27No component to render. Make sure your code returns a React element or component.\x27));\n          \x7d\n        \x7d catch (error) \x7b\n          console.error(\x27Execution error:\x27, error);\n          document.getElementById(\x27root\x27).innerHTML = \x27<div class=\x22error\x22>Error: \x27 + error.message + \x27</div>\x27;\n        \x7d\n      </script>\n    </body>\n    </html>\n  "

/-- `executeCode({code, type, onOutput})`: empty-after-trim inputs return
immediately; the `markdown` type renders and returns; otherwise esbuild is
initialized (an initialization failure is reported as a single error item),
imports are rewritten, the code is transpiled (an `Error` failure is
reported as a single `Transpilation error:` item, a non-`Error` failure is
swallowed), and the result is handed to the React or plain execution
path — the React path being chosen for `tsx`/`jsx` code that contains `<`,
`export default` or `export function`. -/
def executeCode (env : ExecEnv) (code typ : String) (st : EsState) :
    ExecResult :=
  if jsTrim code.data = [] then ⟨[], ExecAction.skip, st⟩
  else if typ = "markdown" then
    ⟨[createOutput OutKind.react (createHtmlPreview (markdownToHtml code))],
      ExecAction.skip, st⟩
  else
    match initEsbuild st env.esAttempt with
    | (st', Except.error e) =>
      ⟨[createOutput OutKind.error ("Failed to initialize transpiler: " ++ e)],
        ExecAction.skip, st'⟩
    | (st', Except.ok _) =>
      match env.transform (loaderOf typ) (transformImports code) with
      | Except.error (JsThrown.errObj msg) =>
        ⟨[createOutput OutKind.error ("Transpilation error: " ++ msg)],
          ExecAction.skip, st'⟩
      | Except.error (JsThrown.nonError _) => ⟨[], ExecAction.skip, st'⟩
      | Except.ok transpiled =>
        if (typ = "tsx" ∨ typ = "jsx") ∧
            (containsStr code "<" ∨ containsStr code "export default" ∨
              containsStr code "export function") then
          ⟨[createOutput OutKind.react (reactHtml transpiled)],
            ExecAction.react transpiled, st'⟩
        else ⟨[], ExecAction.plain transpiled, st'⟩

theorem escLt_no_lt (l : List Char) : '<' ∉ escLt l := by
  induction l with
  | nil => simp [escLt]
  | cons c cs ih =>
    by_cases hc : c = '<' <;> simp [escLt, hc, ih]
    exact fun h' => hc h'.symm

theorem escGt_no_gt (l : List Char) : '>' ∉ escGt l := by
  induction l with
  | nil => simp [escGt]
  | cons c cs ih =>
    by_cases hc : c = '>' <;> simp [escGt, hc, ih]
    exact fun h' => hc h'.symm

theorem escGt_keeps_no_lt {l : List Char} (h : '<' ∉ l) : '<' ∉ escGt l := by
  induction l with
  | nil => simp [escGt]
  | cons c cs ih =>
    have hc' : '<' ∉ cs := fun hm => h (List.mem_cons_of_mem c hm)
    have hne : c ≠ '<' := fun hc => h (hc ▸ List.mem_cons_self c cs)
    by_cases hc : c = '>' <;> simp [escGt, hc, ih hc']
    exact fun h' => hne h'.symm

set_option maxRecDepth 100000 in
/-- **C8.** The markdown renderer escapes `&`, `<`, `>` before any
structural substitution — the escaped text contains no raw `<` or `>`
character at all, so prose cannot inject markup — and on the scenario
input `"# Title\n**bold**"`, `executeCode` emits exactly one `react`
(rendered-view) item whose content contains `<h1>Title</h1>` and
`<strong>bold</strong>`, with no transpilation and no execution context
(the action is `skip`, the esbuild cache untouched, for every environment
and cache state). -/
theorem markdown_escapes_and_scenario :
    (∀ l : List Char, '<' ∉ escapeHtml l ∧ '>' ∉ escapeHtml l) ∧
    (∀ md : String, markdownToHtml md =
      ⟨"<p>".data ++ structuralSubs (escapeHtml md.data) ++ "</p>".data⟩) ∧
    (∀ (env : ExecEnv) (st : EsState),
      executeCode env "# Title\n**bold**" "markdown" st =
        ⟨[createOutput OutKind.react
            (createHtmlPreview (markdownToHtml "# Title\n**bold**"))],
          ExecAction.skip, st⟩) ∧
    containsStr (createHtmlPreview (markdownToHtml "# Title\n**bold**"))
      "<h1>Title</h1>" = true ∧
    containsStr (createHtmlPreview (markdownToHtml "# Title\n**bold**"))
      "<strong>bold</strong>" = true := by
  refine ⟨?_, fun _ => rfl, ?_, ?_, ?_⟩
  · intro l
    exact ⟨escGt_keeps_no_lt (escLt_no_lt (escAmp l)), escGt_no_gt _⟩
  · intro env st
    unfold executeCode
    rw [if_neg (by decide), if_pos rfl]
  · decide
  · decide

theorem dropWhile_all {p : Char → Bool} {l : List Char}
    (h : ∀ x ∈ l, p x = true) : l.dropWhile p = [] := by
  induction l with
  | nil => rfl
  | cons c cs ih =>
    rw [List.dropWhile_cons, h c (List.mem_cons_self c cs)]
    simp only [if_true]
    exact ih fun x hx => h x (List.mem_cons_of_mem c hx)

/-- **C10.** For every input whose source text consists only of whitespace
(including the empty text), `executeCode` returns immediately with zero
output items, no execution action and an unchanged initialization cache,
for every declared type — `markdown` included. -/
theorem blank_input_no_output (env : ExecEnv) (code typ : String)
    (st : EsState) (h : ∀ c ∈ code.data, isJsWs c = true) :
    executeCode env code typ st = ⟨[], ExecAction.skip, st⟩ := by
  have htrim : jsTrim code.data = [] := by
    unfold jsTrim
    rw [dropWhile_all h]
    rfl
  unfold executeCode
  rw [if_pos htrim]

/-- Witness for C10: blanks and a newline under the `markdown` type yield
no output at all. -/
theorem blank_input_no_output_witness :
    executeCode ⟨Except.ok (), fun _ c => Except.ok c⟩ "  \n\t " "markdown"
      ⟨false, none⟩ = ⟨[], ExecAction.skip, ⟨false, none⟩⟩ :=
  blank_input_no_output _ "  \n\t " "markdown" ⟨false, none⟩ (by decide)

/-- **C9.** Once initialization has failed, the failure is cached: for
every later attempt outcome — even one that would succeed — `initEsbuild`
surfaces the same cached error and leaves the cache unchanged, and every
non-blank, non-markdown invocation emits exactly one error item carrying
the cached message, performs no transpilation and starts no execution. -/
theorem init_failure_sticky (st : EsState) (e : String)
    (attempt : Except JsThrown Unit) (env : ExecEnv) (code typ : String)
    (hinit : st.initialized = false) (herr : st.initError = some e)
    (htrim : jsTrim code.data ≠ []) (htyp : typ ≠ "markdown") :
    initEsbuild st attempt = (st, Except.error e) ∧
    executeCode env code typ st =
      ⟨[createOutput OutKind.error ("Failed to initialize transpiler: " ++ e)],
        ExecAction.skip, st⟩ := by
  have hinitEq : initEsbuild st env.esAttempt = (st, Except.error e) := by
    unfold initEsbuild
    rw [hinit, herr]
    rfl
  constructor
  · unfold initEsbuild
    rw [hinit, herr]
    rfl
  · unfold executeCode
    rw [if_neg htrim, if_neg htyp, hinitEq]

/-- Witness for C9: a cached failure is re-surfaced even though the fresh
attempt in the environment would have succeeded. -/
theorem init_failure_sticky_witness :
    initEsbuild ⟨false, some "wasm missing"⟩ (Except.ok ()) =
      (⟨false, some "wasm missing"⟩, Except.error "wasm missing") ∧
    executeCode ⟨Except.ok (), fun _ c => Except.ok c⟩ "1 + 1" "javascript"
      ⟨false, some "wasm missing"⟩ =
      ⟨[createOutput OutKind.error
          "Failed to initialize transpiler: wasm missing"],
        ExecAction.skip, ⟨false, some "wasm missing"⟩⟩ := by
  have h := init_failure_sticky ⟨false, some "wasm missing"⟩ "wasm missing"
    (Except.ok ()) ⟨Except.ok (), fun _ c => Except.ok c⟩ "1 + 1" "javascript"
    rfl rfl (by decide) (by decide)
  exact ⟨h.1, h.2⟩

/-- **C4 (amended).** When transpilation fails by throwing an `Error`
instance — the only failure mode esbuild's `transform` exhibits —
`executeCode` emits exactly one `error` item carrying the underlying
message (prefixed `Transpilation error: `), starts no execution, and
returns normally; when the thrown value is not an `Error` instance, the
`instanceof` guard suppresses the item entirely and the call still starts
no execution and returns normally. -/
theorem transpile_failure_no_execution (env : ExecEnv) (code typ : String)
    (st : EsState) (msg srep : String) (hst : st.initialized = true)
    (htrim : jsTrim code.data ≠ []) (htyp : typ ≠ "markdown") :
    (env.transform (loaderOf typ) (transformImports code) =
        Except.error (JsThrown.errObj msg) →
      executeCode env code typ st =
        ⟨[createOutput OutKind.error ("Transpilation error: " ++ msg)],
          ExecAction.skip, st⟩) ∧
    (env.transform (loaderOf typ) (transformImports code) =
        Except.error (JsThrown.nonError srep) →
      executeCode env code typ st = ⟨[], ExecAction.skip, st⟩) := by
  have hinitEq : initEsbuild st env.esAttempt = (st, Except.ok ()) := by
    unfold initEsbuild
    rw [hst]
    rfl
  constructor
  · intro htr
    unfold executeCode
    rw [if_neg htrim, if_neg htyp, hinitEq, htr]
  · intro htr
    unfold executeCode
    rw [if_neg htrim, if_neg htyp, hinitEq, htr]

/-- Witness for C4's amended statement: a concrete `Error`-failure emits
the single prefixed item, a concrete non-`Error` failure emits nothing. -/
theorem transpile_failure_no_execution_witness :
    executeCode ⟨Except.ok (), fun _ _ =>
        Except.error (JsThrown.errObj "Unexpected end of file")⟩
      "let x = (" "javascript" ⟨true, none⟩ =
      ⟨[createOutput OutKind.error
          "Transpilation error: Unexpected end of file"],
        ExecAction.skip, ⟨true, none⟩⟩ ∧
    executeCode ⟨Except.ok (), fun _ _ =>
        Except.error (JsThrown.nonError "oops")⟩
      "let x = (" "javascript" ⟨true, none⟩ =
      ⟨[], ExecAction.skip, ⟨true, none⟩⟩ := by
  constructor
  · exact (transpile_failure_no_execution
      ⟨Except.ok (), fun _ _ => Except.error (JsThrown.errObj "Unexpected end of file")⟩
      "let x = (" "javascript" ⟨true, none⟩ "Unexpected end of file" ""
      rfl (by decide) (by decide)).1 rfl
  · exact (transpile_failure_no_execution
      ⟨Except.ok (), fun _ _ => Except.error (JsThrown.nonError "oops")⟩
      "let x = (" "javascript" ⟨true, none⟩ "" "oops"
      rfl (by decide) (by decide)).2 rfl

/-- Counterexample for C4 as stated: a transpilation failure whose thrown
value is not an `Error` instance produces zero output items — not exactly
one — because of the `error instanceof Error` guard. -/
theorem transpile_failure_counterexample :
    (executeCode ⟨Except.ok (), fun _ _ =>
        Except.error (JsThrown.nonError "oops")⟩
      "let x = (" "javascript" ⟨true, none⟩).outputs = [] ∧
    (executeCode ⟨Except.ok (), fun _ _ =>
        Except.error (JsThrown.nonError "oops")⟩
      "let x = (" "javascript" ⟨true, none⟩).outputs.length ≠ 1 := by
  constructor
  · decide
  · decide

end HackerLab
